import Mathlib

/-!
Verification of the YAML event-stream parser/emitter core specified for the
YamlDotNet wrapper fragment.  The repository source (`ScalarEvent.h`,
`DocumentStartEvent.h`) only declares the managed event classes; the engine
(scanner, parser, emitter) is specified in `spec.md` and is modelled here
from that specification.  Text is modelled as `List Char`.
-/

set_option maxRecDepth 10000

abbrev Str := List Char

/-- Left curly brace character, written numerically. -/
def lbrace : Char := Char.ofNat 123

/-- Right curly brace character, written numerically. -/
def rbrace : Char := Char.ofNat 125

/-- Characters allowed in anchor and alias names. -/
def isNameChar (c : Char) : Bool := c.isAlpha || c.isDigit

/-- Characters allowed inside a plain (unquoted) scalar: everything except the
flow indicators, the mapping indicator, quotes, line breaks and the
anchor/alias sigils. -/
def plainChar (c : Char) : Bool :=
  !(c == ',' || c == '[' || c == ']' || c == lbrace || c == rbrace ||
    c == ':' || c == '"' || c == '\n' || c == '&' || c == '*')

/-- The `---` document start marker line. -/
def dashes3 : Str := ['-', '-', '-']

/-- Scalar presentation styles, exactly the five listed in the spec and in
`ScalarStyle.h`: Plain, SingleQuoted, DoubleQuoted, Literal, Folded. -/
inductive ScalarStyle where
  | Plain
  | SingleQuoted
  | DoubleQuoted
  | Literal
  | Folded
deriving DecidableEq, Repr

/-- Collection presentation styles: Block or Flow. -/
inductive CollectionStyle where
  | Block
  | Flow
deriving DecidableEq, Repr

/-- A YAML version directive value (major, minor). -/
structure YamlVersion where
  major : Nat
  minor : Nat
deriving DecidableEq, Repr

/-- The event data model of the spec (§3): a tagged union over the ten
variant kinds shared by Parser and Emitter. -/
inductive Event where
  | streamStart
  | streamEnd
  | documentStart (version : Option YamlVersion) (isImplicit : Bool)
  | documentEnd
  | alias (anchor : Str)
  | scalar (anchor : Option Str) (tag : Option Str) (value : Str)
      (style : ScalarStyle) (isPlainImplicit : Bool) (isQuotedImplicit : Bool)
  | sequenceStart (anchor : Option Str) (tag : Option Str) (style : CollectionStyle)
  | sequenceEnd
  | mappingStart (anchor : Option Str) (tag : Option Str) (style : CollectionStyle)
  | mappingEnd
deriving DecidableEq, Repr

/-- Parse-time failures (spec §4.2 / §7). -/
inductive ParseError where
  | UnexpectedToken
  | DuplicateAnchor
  | UndefinedAlias
  | BadDirective
deriving DecidableEq, Repr

/-- Emitter-side failure: the caller fed an unbalanced event stream (§4.3). -/
inductive EmitError where
  | Unbalanced
deriving DecidableEq, Repr

/-- The semantic content of an event: everything except presentation detail
(styles, implicit flags, version directive).  Two event streams are
structurally equivalent when they agree after `sem`. -/
inductive SemEvent where
  | streamStart
  | streamEnd
  | docStart
  | docEnd
  | alias (anchor : Str)
  | scalar (anchor : Option Str) (tag : Option Str) (value : Str)
  | seqStart (anchor : Option Str) (tag : Option Str)
  | seqEnd
  | mapStart (anchor : Option Str) (tag : Option Str)
  | mapEnd
deriving DecidableEq, Repr

/-- Erase presentation detail from an event, keeping semantic content. -/
def sem : Event → SemEvent
  | .streamStart => .streamStart
  | .streamEnd => .streamEnd
  | .documentStart _ _ => .docStart
  | .documentEnd => .docEnd
  | .alias a => .alias a
  | .scalar a t v _ _ _ => .scalar a t v
  | .sequenceStart a t _ => .seqStart a t
  | .sequenceEnd => .seqEnd
  | .mappingStart a t _ => .mapStart a t
  | .mappingEnd => .mapEnd

/-!  The managed wrapper classes declared in `src/YamlDotNet.Core.Old`.
The headers declare only private fields, constructors and get-only
properties; the getter bodies live in the missing `.cpp` files.
Modelled from the spec: each getter returns the corresponding stored
field, and the widest constructor stores its arguments. -/

/-- `ScalarEvent` (from `ScalarEvent.h`): private fields `anchor`, `tag`,
`value`, `style`, `isPlainImplicit`, `isQuotedImplicit`. -/
structure ScalarEvent where
  anchor : Option Str
  tag : Option Str
  value : Str
  style : ScalarStyle
  isPlainImplicit : Bool
  isQuotedImplicit : Bool
deriving DecidableEq, Repr

/-- The widest constructor overload
`ScalarEvent(value, tag, anchor, style, isPlainImplicit, isQuotedImplicit)`. -/
def ScalarEvent.make (value : Str) (tag : Option Str) (anchor : Option Str)
    (style : ScalarStyle) (isPlainImplicit isQuotedImplicit : Bool) : ScalarEvent :=
  ⟨anchor, tag, value, style, isPlainImplicit, isQuotedImplicit⟩

/-- Modelled from the spec: the `Anchor` property getter (body in missing cpp). -/
def ScalarEvent.Anchor (e : ScalarEvent) : Option Str := e.anchor

/-- Modelled from the spec: the `Tag` property getter (body in missing cpp). -/
def ScalarEvent.Tag (e : ScalarEvent) : Option Str := e.tag

/-- Modelled from the spec: the `Value` property getter (body in missing cpp). -/
def ScalarEvent.Value (e : ScalarEvent) : Str := e.value

/-- Modelled from the spec: the `Length` property getter returns the number of
characters of the scalar value (body in missing cpp). -/
def ScalarEvent.Length (e : ScalarEvent) : Nat := e.value.length

/-- Modelled from the spec: the `IsPlainImplicit` property getter. -/
def ScalarEvent.IsPlainImplicit (e : ScalarEvent) : Bool := e.isPlainImplicit

/-- Modelled from the spec: the `IsQuotedImplicit` property getter. -/
def ScalarEvent.IsQuotedImplicit (e : ScalarEvent) : Bool := e.isQuotedImplicit

/-- Modelled from the spec: the `Style` property getter. -/
def ScalarEvent.Style (e : ScalarEvent) : ScalarStyle := e.style

/-- `DocumentStartEvent` (from `DocumentStartEvent.h`): private fields
`version` and `isImplicit`; the spec (§3) records the version as optional.
The header contains only `// TODO: Tag directives` — no tag-directive field,
constructor parameter or property exists. -/
structure DocumentStartEvent where
  version : Option YamlVersion
  isImplicit : Bool
deriving DecidableEq, Repr

/-- The widest constructor overload `DocumentStartEvent(version, isImplicit)`. -/
def DocumentStartEvent.make (version : Option YamlVersion) (isImplicit : Bool) :
    DocumentStartEvent :=
  ⟨version, isImplicit⟩

/-- Modelled from the spec: the `Version` property getter. -/
def DocumentStartEvent.Version (e : DocumentStartEvent) : Option YamlVersion := e.version

/-- Modelled from the spec: the `IsImplicit` property getter. -/
def DocumentStartEvent.IsImplicit (e : DocumentStartEvent) : Bool := e.isImplicit

/-!  Property reads modelled as explicit state transformers: a get-only
property returns the stored value and leaves the object unchanged (there is
no setter in the public surface). -/

def ScalarEvent.readAnchor (e : ScalarEvent) : Option Str × ScalarEvent := (e.anchor, e)

def ScalarEvent.readTag (e : ScalarEvent) : Option Str × ScalarEvent := (e.tag, e)

def ScalarEvent.readValue (e : ScalarEvent) : Str × ScalarEvent := (e.value, e)

def ScalarEvent.readLength (e : ScalarEvent) : Nat × ScalarEvent := (e.value.length, e)

def ScalarEvent.readIsPlainImplicit (e : ScalarEvent) : Bool × ScalarEvent :=
  (e.isPlainImplicit, e)

def ScalarEvent.readIsQuotedImplicit (e : ScalarEvent) : Bool × ScalarEvent :=
  (e.isQuotedImplicit, e)

def ScalarEvent.readStyle (e : ScalarEvent) : ScalarStyle × ScalarEvent := (e.style, e)

def DocumentStartEvent.readVersion (e : DocumentStartEvent) :
    Option YamlVersion × DocumentStartEvent := (e.version, e)

def DocumentStartEvent.readIsImplicit (e : DocumentStartEvent) :
    Bool × DocumentStartEvent := (e.isImplicit, e)

/-!  The node syntax tree produced by the (spec-modelled) Parser for one
document: scalars, aliases, sequences and mappings, each node optionally
anchored.  Mutual inductives are used so that structural recursion over
child lists stays simple. -/

mutual
/-- Modelled from the spec: a parsed YAML node (spec §3 data model), used
internally by the modelled Parser and Emitter. -/
inductive Node where
  | scalar (anchor : Option Str) (value : Str) (style : ScalarStyle)
  | alias (name : Str)
  | seq (anchor : Option Str) (style : CollectionStyle) (items : NodeList)
  | map (anchor : Option Str) (style : CollectionStyle) (pairs : PairList)
deriving DecidableEq, Repr

/-- A list of sequence items. -/
inductive NodeList where
  | nil
  | cons (head : Node) (tail : NodeList)
deriving DecidableEq, Repr

/-- A list of mapping key/value pairs. -/
inductive PairList where
  | nil
  | cons (key : Node) (val : Node) (tail : PairList)
deriving DecidableEq, Repr
end

/-- Modelled from the spec: one parsed document — the implicit flag of its
`DocumentStart` (true when no `---` marker was present) and its root node. -/
structure RawDoc where
  implicit : Bool
  node : Node
deriving DecidableEq, Repr

/-- True exactly for the Plain scalar style. -/
def isPlainStyle : ScalarStyle → Bool
  | .Plain => true
  | _ => false

mutual
/-- Modelled from the spec: flatten a node into the event sequence the
Parser emits for it.  Plain scalars get `isPlainImplicit = true`, quoted
scalars get `isQuotedImplicit = true` (spec §8 implicit-tag flags); the
modelled subset produces no tags. -/
def flattenN : Node → List Event
  | .scalar a v st => [.scalar a none v st (isPlainStyle st) (!isPlainStyle st)]
  | .alias n => [.alias n]
  | .seq a st items => .sequenceStart a none st :: (flattenL items ++ [.sequenceEnd])
  | .map a st pairs => .mappingStart a none st :: (flattenP pairs ++ [.mappingEnd])

/-- Flatten a list of sequence items. -/
def flattenL : NodeList → List Event
  | .nil => []
  | .cons n l => flattenN n ++ flattenL l

/-- Flatten a list of mapping pairs (key events then value events). -/
def flattenP : PairList → List Event
  | .nil => []
  | .cons k v l => flattenN k ++ (flattenN v ++ flattenP l)
end

/-- Events of one document: `DocumentStart`, the node events, `DocumentEnd`. -/
def flattenDoc (d : RawDoc) : List Event :=
  .documentStart none d.implicit :: (flattenN d.node ++ [.documentEnd])

/-- Events of a list of documents. -/
def flattenDocs : List RawDoc → List Event
  | [] => []
  | d :: ds => flattenDoc d ++ flattenDocs ds

/-- Events of a whole stream: `StreamStart`, the documents, `StreamEnd`. -/
def flattenStream (docs : List RawDoc) : List Event :=
  .streamStart :: (flattenDocs docs ++ [.streamEnd])

mutual
/-- The canonical form the modelled Emitter produces: every scalar becomes
double-quoted, every collection becomes flow style.  Semantic content
(anchors, values, structure) is unchanged. -/
def canonN : Node → Node
  | .scalar a v _ => .scalar a v .DoubleQuoted
  | .alias n => .alias n
  | .seq a _ items => .seq a .Flow (canonL items)
  | .map a _ pairs => .map a .Flow (canonP pairs)

/-- Canonical form of a list of sequence items. -/
def canonL : NodeList → NodeList
  | .nil => .nil
  | .cons n l => .cons (canonN n) (canonL l)

/-- Canonical form of a list of mapping pairs. -/
def canonP : PairList → PairList
  | .nil => .nil
  | .cons k v l => .cons (canonN k) (canonN v) (canonP l)
end

/-- Canonical form of a document list: emitted documents always carry an
explicit `---` marker, so their implicit flag is false. -/
def canonDocs : List RawDoc → List RawDoc
  | [] => []
  | d :: ds => ⟨false, canonN d.node⟩ :: canonDocs ds

/-- A well-formed anchor or alias name: nonempty and alphanumeric. -/
def wfName (n : Str) : Bool := !n.isEmpty && n.all isNameChar

/-- A well-formed optional anchor. -/
def wfAnchor : Option Str → Bool
  | none => true
  | some a => wfName a

mutual
/-- Well-formedness of a node: all anchor and alias names are nonempty and
alphanumeric.  Every node the modelled Parser produces is well-formed. -/
def wfN : Node → Bool
  | .scalar a _ _ => wfAnchor a
  | .alias n => wfName n
  | .seq a _ items => wfAnchor a && wfL items
  | .map a _ pairs => wfAnchor a && wfP pairs

/-- Well-formedness of a list of sequence items. -/
def wfL : NodeList → Bool
  | .nil => true
  | .cons n l => wfN n && wfL l

/-- Well-formedness of a list of mapping pairs. -/
def wfP : PairList → Bool
  | .nil => true
  | .cons k v l => wfN k && (wfN v && wfP l)
end

/-- All documents of a stream are well-formed. -/
def wfDocs : List RawDoc → Bool
  | [] => true
  | d :: ds => wfN d.node && wfDocs ds

mutual
/-- Fuel measure for a node: an upper bound on the recursion depth the
character-level parser needs to re-read its printed form. -/
def sizeN : Node → Nat
  | .scalar _ _ _ => 2
  | .alias _ => 2
  | .seq _ _ items => 2 + sizeL items
  | .map _ _ pairs => 2 + sizeP pairs

/-- Fuel measure for a list of sequence items. -/
def sizeL : NodeList → Nat
  | .nil => 1
  | .cons n l => 1 + sizeN n + sizeL l

/-- Fuel measure for a list of mapping pairs. -/
def sizeP : PairList → Nat
  | .nil => 1
  | .cons k v l => 1 + sizeN k + sizeN v + sizeP l
end

/-- Escape one character for a double-quoted scalar. -/
def escapeChar (c : Char) : Str :=
  if c = '"' then ['\\', '"']
  else if c = '\\' then ['\\', '\\']
  else if c = '\n' then ['\\', 'n']
  else [c]

/-- Escape a scalar value for double-quoted output. -/
def escape (v : Str) : Str := (v.map escapeChar).flatten

/-- Printed form of an optional anchor: `&name ` or nothing. -/
def ancPre : Option Str → Str
  | none => []
  | some a => '&' :: (a ++ [' '])

mutual
/-- Modelled from the spec: the Emitter's canonical printed form of a node —
double-quoted scalars, flow collections, `&name ` anchors, `*name` aliases. -/
def printN : Node → Str
  | .scalar a v _ => ancPre a ++ ('"' :: (escape v ++ ['"']))
  | .alias n => '*' :: n
  | .seq a _ items => ancPre a ++ ('[' :: (printItems items ++ [']']))
  | .map a _ pairs => ancPre a ++ (lbrace :: (printPairs pairs ++ [rbrace]))

/-- Comma-separated printed items of a sequence. -/
def printItems : NodeList → Str
  | .nil => []
  | .cons n .nil => printN n
  | .cons n (.cons m l) => printN n ++ (',' :: ' ' :: printItems (.cons m l))

/-- Comma-separated printed `key: value` pairs of a mapping. -/
def printPairs : PairList → Str
  | .nil => []
  | .cons k v .nil => printN k ++ (':' :: ' ' :: printN v)
  | .cons k v (.cons k2 v2 l) =>
      printN k ++ (':' :: ' ' :: (printN v ++ (',' :: ' ' :: printPairs (.cons k2 v2 l))))
end

/-- Unescape one character after a backslash in a double-quoted scalar. -/
def unescapeChar (c : Char) : Option Char :=
  if c = '"' then some '"'
  else if c = '\\' then some '\\'
  else if c = 'n' then some '\n'
  else none

/-- Modelled from the spec: scan the body of a double-quoted scalar (the
opening quote already consumed), returning the unescaped value and the rest
of the input after the closing quote. -/
def parseQuoted : Str → Option (Str × Str)
  | [] => none
  | c :: xs =>
    if c = '"' then some ([], xs)
    else if c = '\\' then
      match xs with
      | [] => none
      | e :: ys =>
        match unescapeChar e with
        | none => none
        | some u =>
          match parseQuoted ys with
          | some (v, r) => some (u :: v, r)
          | none => none
    else
      match parseQuoted xs with
      | some (v, r) => some (c :: v, r)
      | none => none

/-- Drop a single space used as separator padding after `,` or `:`. -/
def dropOneSpace : Str → Str
  | ' ' :: r => r
  | r => r

mutual
/-- Modelled from the spec: parse one flow node — an alias `*name`, an
anchored node `&name node`, or a bare node.  Fuel bounds recursion depth. -/
def parseNode : Nat → Str → Option (Node × Str)
  | 0, _ => none
  | _+1, [] => none
  | fuel+1, c :: xs =>
    if c = '*' then
      let name := xs.takeWhile isNameChar
      if name.isEmpty then none
      else some (.alias name, xs.dropWhile isNameChar)
    else if c = '&' then
      let name := xs.takeWhile isNameChar
      if name.isEmpty then none
      else
        match xs.dropWhile isNameChar with
        | [] => none
        | d :: rest2 => if d = ' ' then parseBare fuel (some name) rest2 else none
    else parseBare fuel none (c :: xs)

/-- Modelled from the spec: parse a bare (unanchored) flow node — a
double-quoted scalar, a flow sequence `[...]`, a flow mapping `(braces)`,
or a plain scalar. -/
def parseBare : Nat → Option Str → Str → Option (Node × Str)
  | 0, _, _ => none
  | _+1, _, [] => none
  | fuel+1, anc, c :: xs =>
    if c = '"' then
      match parseQuoted xs with
      | some (v, r) => some (.scalar anc v .DoubleQuoted, r)
      | none => none
    else if c = '[' then
      match parseItems fuel xs with
      | some (l, r) => some (.seq anc .Flow l, r)
      | none => none
    else if c = lbrace then
      match parsePairs fuel xs with
      | some (p, r) => some (.map anc .Flow p, r)
      | none => none
    else
      let v := (c :: xs).takeWhile plainChar
      if v.isEmpty then none
      else some (.scalar anc v .Plain, (c :: xs).dropWhile plainChar)

/-- Modelled from the spec: parse the comma-separated items of a flow
sequence up to the closing bracket. -/
def parseItems : Nat → Str → Option (NodeList × Str)
  | 0, _ => none
  | _+1, [] => none
  | fuel+1, c :: xs =>
    if c = ']' then some (.nil, xs)
    else
      match parseNode fuel (c :: xs) with
      | some (n, r) =>
        match r with
        | [] => none
        | d :: r2 =>
          if d = ']' then some (.cons n .nil, r2)
          else if d = ',' then
            match parseItems fuel (dropOneSpace r2) with
            | some (l, r3) => some (.cons n l, r3)
            | none => none
          else none
      | none => none

/-- Modelled from the spec: parse the comma-separated `key: value` pairs of
a flow mapping up to the closing brace. -/
def parsePairs : Nat → Str → Option (PairList × Str)
  | 0, _ => none
  | _+1, [] => none
  | fuel+1, c :: xs =>
    if c = rbrace then some (.nil, xs)
    else
      match parseNode fuel (c :: xs) with
      | some (k, r) =>
        match r with
        | [] => none
        | d :: r2 =>
          if d = ':' then
            match parseNode fuel (dropOneSpace r2) with
            | some (v, r3) =>
              match r3 with
              | [] => none
              | e :: r4 =>
                if e = rbrace then some (.cons k v .nil, r4)
                else if e = ',' then
                  match parsePairs fuel (dropOneSpace r4) with
                  | some (l, r5) => some (.cons k v l, r5)
                  | none => none
                else none
            | none => none
          else none
      | none => none
end

/-- Split input text into lines at newline characters. -/
def splitLines : Str → List Str
  | [] => []
  | c :: cs =>
    if c = '\n' then [] :: splitLines cs
    else
      match splitLines cs with
      | [] => [[c]]
      | l :: ls => (c :: l) :: ls

/-- Lexical classification of one line (spec §4.1 scanner token kinds for
the modelled subset). -/
inductive LineKind where
  | marker
  | seqItem (rest : Str)
  | mapItem (key : Str) (rest : Str)
  | flowLine
deriving DecidableEq, Repr

/-- Modelled from the spec: classify a line as a `---` marker, a block
sequence entry `- ...`, a block mapping entry `key: ...`, or a flow node
line. -/
def classify (l : Str) : LineKind :=
  if l = dashes3 then .marker
  else
    match l with
    | [] => .flowLine
    | c :: r =>
      if c = '-' ∧ r.head? = some ' ' then .seqItem r.tail
      else
        let k := (c :: r).takeWhile plainChar
        if k.isEmpty then .flowLine
        else
          match (c :: r).dropWhile plainChar with
          | [] => .flowLine
          | d :: r2 =>
            if d = ':' ∧ r2.head? = some ' ' then .mapItem k r2.tail
            else .flowLine

/-- Parse a whole line as one flow node, requiring it to be fully consumed. -/
def parseFlowLine (l : Str) : Except ParseError Node :=
  match parseNode (2 * l.length + 1) l with
  | some (n, []) => .ok n
  | _ => .error .UnexpectedToken

/-- Parse the lines of a block sequence document body. -/
def parseSeqLines : List Str → Except ParseError NodeList
  | [] => .ok .nil
  | l :: ls =>
    match classify l with
    | .seqItem r =>
      match parseFlowLine r with
      | .ok n =>
        match parseSeqLines ls with
        | .ok tail => .ok (.cons n tail)
        | .error e => .error e
      | .error e => .error e
    | _ => .error .UnexpectedToken

/-- Parse the lines of a block mapping document body; keys become plain
scalars. -/
def parseMapLines : List Str → Except ParseError PairList
  | [] => .ok .nil
  | l :: ls =>
    match classify l with
    | .mapItem k r =>
      match parseFlowLine r with
      | .ok v =>
        match parseMapLines ls with
        | .ok tail => .ok (.cons (.scalar none k .Plain) v tail)
        | .error e => .error e
      | .error e => .error e
    | _ => .error .UnexpectedToken

/-- Modelled from the spec: parse one document body — a block sequence, a
block mapping, or a single flow node line. -/
def parseContent : List Str → Except ParseError Node
  | [] => .error .UnexpectedToken
  | l :: ls =>
    match classify l with
    | .seqItem _ =>
      match parseSeqLines (l :: ls) with
      | .ok items => .ok (.seq none .Block items)
      | .error e => .error e
    | .mapItem _ _ =>
      match parseMapLines (l :: ls) with
      | .ok pairs => .ok (.map none .Block pairs)
      | .error e => .error e
    | .flowLine =>
      match ls with
      | [] => parseFlowLine l
      | _ => .error .UnexpectedToken
    | .marker => .error .UnexpectedToken

/-- Modelled from the spec: parse a stream of documents from its lines,
with fuel bounding the recursion (one unit per document marker).  The first
document may omit the `---` marker (then its `DocumentStart` is implicit);
every later document must start with `---`. -/
def parseDocsF : Nat → Bool → List Str → Except ParseError (List RawDoc)
  | 0, _, _ => .error .UnexpectedToken
  | _+1, _, [] => .ok []
  | fuel+1, isFirst, l :: ls =>
    if l = dashes3 then
      match parseContent (ls.takeWhile (fun x => x ≠ dashes3)) with
      | .ok n =>
        match parseDocsF fuel false (ls.dropWhile (fun x => x ≠ dashes3)) with
        | .ok ds => .ok (⟨false, n⟩ :: ds)
        | .error e => .error e
      | .error e => .error e
    else if isFirst then
      match parseContent ((l :: ls).takeWhile (fun x => x ≠ dashes3)) with
      | .ok n =>
        match parseDocsF fuel false ((l :: ls).dropWhile (fun x => x ≠ dashes3)) with
        | .ok ds => .ok (⟨true, n⟩ :: ds)
        | .error e => .error e
      | .error e => .error e
    else .error .UnexpectedToken

/-- `parseDocsF` with enough fuel for its line list. -/
def parseDocs (isFirst : Bool) (ls : List Str) : Except ParseError (List RawDoc) :=
  parseDocsF (ls.length + 1) isFirst ls

/-- The anchor defined by an event, if any (spec §3: scalar and collection
start events may carry an anchor). -/
def anchorOf : Event → Option Str
  | .scalar a _ _ _ _ _ => a
  | .sequenceStart a _ _ => a
  | .mappingStart a _ _ => a
  | _ => none

/-- Modelled from the spec: the Parser's anchor table pass.  Walks the event
stream carrying the table of anchors defined so far in the current document;
a redefined anchor fails with `DuplicateAnchor`, an alias to an unknown
anchor fails with `UndefinedAlias`, and the table is cleared at each
`DocumentEnd`.  Returns the final table. -/
def runCheck : List Str → List Event → Except ParseError (List Str)
  | tbl, [] => .ok tbl
  | tbl, e :: es =>
    match anchorOf e with
    | some a => if a ∈ tbl then .error .DuplicateAnchor else runCheck (a :: tbl) es
    | none =>
      match e with
      | .alias n => if n ∈ tbl then runCheck tbl es else .error .UndefinedAlias
      | .documentEnd => runCheck [] es
      | _ => runCheck tbl es

/-- Modelled from the spec: `parse` over character lists — split into lines,
parse the documents, flatten to events, and run the anchor-table pass. -/
def parseLC (cs : Str) : Except ParseError (List Event) :=
  match parseDocs true (splitLines cs) with
  | .error e => .error e
  | .ok docs =>
    match runCheck [] (flattenStream docs) with
    | .error e => .error e
    | .ok _ => .ok (flattenStream docs)

/-- Modelled from the spec: `parse(stream) -> sequence of Event` (spec §6). -/
def parse (s : String) : Except ParseError (List Event) := parseLC s.toList

mutual
/-- Modelled from the spec: the Emitter's reconstruction of one node from
the front of an event sequence (the reverse of `flattenN`).  Fuel bounds
recursion depth. -/
def takeNode : Nat → List Event → Option (Node × List Event)
  | 0, _ => none
  | fuel+1, es =>
    match es with
    | .scalar a _ v st _ _ :: rest => some (.scalar a v st, rest)
    | .alias n :: rest => some (.alias n, rest)
    | .sequenceStart a _ st :: rest =>
      match takeItems fuel rest with
      | some (l, r) => some (.seq a st l, r)
      | none => none
    | .mappingStart a _ st :: rest =>
      match takePairs fuel rest with
      | some (p, r) => some (.map a st p, r)
      | none => none
    | _ => none

/-- Reconstruct sequence items up to the matching `SequenceEnd`. -/
def takeItems : Nat → List Event → Option (NodeList × List Event)
  | 0, _ => none
  | fuel+1, es =>
    match es with
    | .sequenceEnd :: rest => some (.nil, rest)
    | _ =>
      match takeNode fuel es with
      | some (n, r) =>
        match takeItems fuel r with
        | some (l, r2) => some (.cons n l, r2)
        | none => none
      | none => none

/-- Reconstruct mapping pairs up to the matching `MappingEnd`. -/
def takePairs : Nat → List Event → Option (PairList × List Event)
  | 0, _ => none
  | fuel+1, es =>
    match es with
    | .mappingEnd :: rest => some (.nil, rest)
    | _ =>
      match takeNode fuel es with
      | some (k, r) =>
        match takeNode fuel r with
        | some (v, r2) =>
          match takePairs fuel r2 with
          | some (l, r3) => some (.cons k v l, r3)
          | none => none
        | none => none
      | none => none
end

/-- Reconstruct the list of documents between `StreamStart` and `StreamEnd`. -/
def takeDocs : Nat → List Event → Option (List RawDoc)
  | _, [.streamEnd] => some []
  | 0, _ => none
  | fuel+1, .documentStart _ impl :: rest =>
    match takeNode (rest.length + 1) rest with
    | some (n, r) =>
      match r with
      | .documentEnd :: r2 =>
        match takeDocs fuel r2 with
        | some ds => some (⟨impl, n⟩ :: ds)
        | none => none
      | _ => none
    | none => none
  | _, _ => none

/-- Modelled from the spec: check that an event sequence is a well-bracketed
stream (one `StreamStart`/`StreamEnd`, per-document node events), returning
its documents.  A violation is the caller's contract error (§4.3). -/
def eventsToDocs (es : List Event) : Option (List RawDoc) :=
  match es with
  | .streamStart :: rest => takeDocs (rest.length + 1) rest
  | _ => none

/-- The lines printed for one document: the `---` marker, then its node in
canonical flow form. -/
def printDocLines (d : RawDoc) : List Str := [dashes3, printN d.node]

/-- Modelled from the spec: the Emitter's serialized text for a document
stream — each printed line terminated by a newline. -/
def printStream (docs : List RawDoc) : Str :=
  (((docs.map printDocLines).flatten).map (fun l => l ++ ['\n'])).flatten

/-- Modelled from the spec: `emit(sequence of Event) -> text` (spec §6);
fails with `EmitError.Unbalanced` when the events do not form a
well-bracketed stream (spec §4.3). -/
def emit (es : List Event) : Except EmitError String :=
  match eventsToDocs es with
  | some docs => .ok (String.mk (printStream docs))
  | none => .error .Unbalanced

/-- A pending open bracket kind: sequence or mapping. -/
inductive BracketKind where
  | seqB
  | mapB
deriving DecidableEq, Repr

/-- Check that sequence/mapping start and end events form a properly nested
bracket structure: each start is closed by exactly one end of the same kind
at the same nesting depth, and no end appears unmatched. -/
def bracketOk : List BracketKind → List Event → Bool
  | stk, [] => stk.isEmpty
  | stk, e :: es =>
    match e with
    | .sequenceStart _ _ _ => bracketOk (.seqB :: stk) es
    | .sequenceEnd =>
      match stk with
      | .seqB :: stk2 => bracketOk stk2 es
      | _ => false
    | .mappingStart _ _ _ => bracketOk (.mapB :: stk) es
    | .mappingEnd =>
      match stk with
      | .mapB :: stk2 => bracketOk stk2 es
      | _ => false
    | _ => bracketOk stk es

/-- Number of `SequenceStart` events. -/
def countSeqStart (es : List Event) : Nat :=
  es.countP (fun e => match e with | .sequenceStart _ _ _ => true | _ => false)

/-- Number of `SequenceEnd` events. -/
def countSeqEnd (es : List Event) : Nat :=
  es.countP (fun e => match e with | .sequenceEnd => true | _ => false)

/-- Number of `MappingStart` events. -/
def countMapStart (es : List Event) : Nat :=
  es.countP (fun e => match e with | .mappingStart _ _ _ => true | _ => false)

/-- Number of `MappingEnd` events. -/
def countMapEnd (es : List Event) : Nat :=
  es.countP (fun e => match e with | .mappingEnd => true | _ => false)

/-- Walk the event stream carrying the numbers of currently open sequences
and mappings; fails (returns false) as soon as an end event appears with no
matching start, so it checks the number of closes never exceeds the number
of opens of the same kind on any prefix. -/
def countsOk : Nat → Nat → List Event → Bool
  | _, _, [] => true
  | s, m, e :: es =>
    match e with
    | .sequenceStart _ _ _ => countsOk (s+1) m es
    | .sequenceEnd =>
      (match s with
       | 0 => false
       | s2+1 => countsOk s2 m es)
    | .mappingStart _ _ _ => countsOk s (m+1) es
    | .mappingEnd =>
      (match m with
       | 0 => false
       | m2+1 => countsOk s m2 es)
    | _ => countsOk s m es

/-- A separator context for flow-node re-parsing: the text following a
printed node must not begin with an alias-name character. -/
def sepOk (rest : Str) : Prop := ∀ c, rest.head? = some c → isNameChar c = false

/-!  Utility lemmas. -/

theorem takeWhile_append_all {α : Type} (p : α → Bool) (xs ys : List α)
    (h : ∀ c ∈ xs, p c = true) (h2 : ∀ c, ys.head? = some c → p c = false) :
    (xs ++ ys).takeWhile p = xs ∧ (xs ++ ys).dropWhile p = ys := by
  induction xs with
  | nil =>
    simp only [List.nil_append]
    cases ys with
    | nil => simp
    | cons y ys2 =>
      have hy : p y = false := h2 y rfl
      simp [List.takeWhile_cons, List.dropWhile_cons, hy]
  | cons x xs2 ih =>
    have hx : p x = true := h x (List.mem_cons_self x xs2)
    have ih2 := ih (fun c hc => h c (List.mem_cons_of_mem x hc))
    simp [List.takeWhile_cons, List.dropWhile_cons, hx, ih2.1, ih2.2]

theorem escapeChar_other (c : Char) (h1 : c ≠ '"') (h2 : c ≠ '\\') (h3 : c ≠ '\n') :
    escapeChar c = [c] := by
  simp [escapeChar, h1, h2, h3]

theorem parseQuoted_quote (xs : Str) : parseQuoted ('"' :: xs) = some ([], xs) := by
  rw [parseQuoted.eq_def]; simp

theorem parseQuoted_backslash (e : Char) (ys : Str) :
    parseQuoted ('\\' :: e :: ys) =
      (match unescapeChar e with
       | none => none
       | some u =>
         match parseQuoted ys with
         | some (v, r) => some (u :: v, r)
         | none => none) := by
  rw [parseQuoted.eq_def]; simp

theorem parseQuoted_other (c : Char) (xs : Str) (h1 : c ≠ '"') (h2 : c ≠ '\\') :
    parseQuoted (c :: xs) =
      (match parseQuoted xs with
       | some (v, r) => some (c :: v, r)
       | none => none) := by
  rw [parseQuoted.eq_def]; simp [h1, h2]

theorem parseQuoted_escape (v : Str) : ∀ rest : Str,
    parseQuoted (escape v ++ ('"' :: rest)) = some (v, rest) := by
  induction v with
  | nil => intro rest; simp [escape, parseQuoted_quote]
  | cons c v2 ih =>
    intro rest
    have hesc : escape (c :: v2) = escapeChar c ++ escape v2 := by
      simp [escape]
    rw [hesc, List.append_assoc]
    by_cases h1 : c = '"'
    · subst h1
      show parseQuoted ('\\' :: '"' :: (escape v2 ++ '"' :: rest)) = _
      rw [parseQuoted_backslash]
      simp [unescapeChar, ih rest]
    · by_cases h2 : c = '\\'
      · subst h2
        show parseQuoted ('\\' :: '\\' :: (escape v2 ++ '"' :: rest)) = _
        rw [parseQuoted_backslash]
        simp [unescapeChar, ih rest]
      · by_cases h3 : c = '\n'
        · subst h3
          show parseQuoted ('\\' :: 'n' :: (escape v2 ++ '"' :: rest)) = _
          rw [parseQuoted_backslash]
          simp [unescapeChar, ih rest]
        · rw [escapeChar_other c h1 h2 h3]
          show parseQuoted (c :: (escape v2 ++ '"' :: rest)) = _
          rw [parseQuoted_other c _ h1 h2]
          simp [ih rest]

theorem splitLines_newline (cs : Str) : splitLines ('\n' :: cs) = [] :: splitLines cs := by
  rw [splitLines.eq_def]; simp

theorem splitLines_other (c : Char) (cs : Str) (hc : c ≠ '\n') :
    splitLines (c :: cs) =
      (match splitLines cs with
       | [] => [[c]]
       | l :: ls => (c :: l) :: ls) := by
  rw [splitLines.eq_def]; simp [hc]

theorem splitLines_append (l : Str) (rest : Str) (h : '\n' ∉ l) :
    splitLines (l ++ '\n' :: rest) = l :: splitLines rest := by
  induction l with
  | nil => simp [splitLines_newline]
  | cons c l2 ih =>
    have hc : c ≠ '\n' := fun hc => h (hc ▸ List.mem_cons_self c l2)
    have ih2 := ih (fun hm => h (List.mem_cons_of_mem c hm))
    rw [List.cons_append, splitLines_other c _ hc, ih2]

theorem splitLines_flatten (L : List Str) (h : ∀ l ∈ L, '\n' ∉ l) :
    splitLines ((L.map (fun l => l ++ ['\n'])).flatten) = L := by
  induction L with
  | nil => simp [splitLines]
  | cons l L2 ih =>
    have hl : '\n' ∉ l := h l (List.mem_cons_self l L2)
    have ih2 := ih (fun x hx => h x (List.mem_cons_of_mem l hx))
    simp only [List.map_cons, List.flatten_cons, List.append_assoc, List.singleton_append]
    rw [splitLines_append l _ hl, ih2]

theorem wfName_mem (nm : Str) (h : wfName nm = true) :
    ∀ c ∈ nm, isNameChar c = true := by
  intro c hc
  have h2 := (Bool.and_eq_true _ _).mp h
  exact (List.all_eq_true.mp h2.2) c hc

theorem wfName_ne_nil (nm : Str) (h : wfName nm = true) : nm ≠ [] := by
  intro hnil
  subst hnil
  simp [wfName] at h

theorem newline_not_in_escapeChar (c : Char) : '\n' ∉ escapeChar c := by
  by_cases h1 : c = '"'
  · subst h1; simp [escapeChar]
  · by_cases h2 : c = '\\'
    · subst h2; simp [escapeChar]
    · by_cases h3 : c = '\n'
      · subst h3; simp [escapeChar]
      · rw [escapeChar_other c h1 h2 h3]
        simp
        exact fun he => h3 he.symm

theorem newline_not_in_escape (v : Str) : '\n' ∉ escape v := by
  intro hmem
  rw [escape, List.mem_flatten] at hmem
  obtain ⟨l, hl, hml⟩ := hmem
  rw [List.mem_map] at hl
  obtain ⟨c, _, hcl⟩ := hl
  exact newline_not_in_escapeChar c (hcl ▸ hml)

theorem newline_not_in_ancPre (a : Option Str) (h : wfAnchor a = true) :
    '\n' ∉ ancPre a := by
  cases a with
  | none => simp [ancPre]
  | some nm =>
    intro hmem
    simp only [ancPre, List.mem_cons, List.mem_append, List.mem_singleton] at hmem
    rcases hmem with h1 | h2 | h3
    · exact absurd h1 (by decide)
    · have := wfName_mem nm h '\n' h2
      simp [isNameChar] at this
    · exact absurd h3 (by decide)

mutual
theorem printN_no_newline : ∀ (n : Node), wfN n = true → '\n' ∉ printN n
  | .scalar a v st, h => by
    intro hmem
    simp only [printN, List.mem_append, List.mem_cons, List.mem_singleton] at hmem
    rcases hmem with h1 | h2 | h3 | h4
    · exact newline_not_in_ancPre a (by simpa [wfN] using h) h1
    · exact absurd h2 (by decide)
    · exact newline_not_in_escape v h3
    · exact absurd h4 (by decide)
  | .alias nm, h => by
    intro hmem
    simp only [printN, List.mem_cons] at hmem
    rcases hmem with h1 | h2
    · exact absurd h1 (by decide)
    · have := wfName_mem nm (by simpa [wfN] using h) '\n' h2
      simp [isNameChar] at this
  | .seq a st items, h => by
    intro hmem
    have hw := (Bool.and_eq_true _ _).mp (by simpa [wfN] using h)
    simp only [printN, List.mem_append, List.mem_cons, List.mem_singleton] at hmem
    rcases hmem with h1 | h2 | h3 | h4
    · exact newline_not_in_ancPre a hw.1 h1
    · exact absurd h2 (by decide)
    · exact printItems_no_newline items hw.2 h3
    · exact absurd h4 (by decide)
  | .map a st pairs, h => by
    intro hmem
    have hw := (Bool.and_eq_true _ _).mp (by simpa [wfN] using h)
    simp only [printN, List.mem_append, List.mem_cons, List.mem_singleton] at hmem
    rcases hmem with h1 | h2 | h3 | h4
    · exact newline_not_in_ancPre a hw.1 h1
    · exact absurd h2 (by decide)
    · exact printPairs_no_newline pairs hw.2 h3
    · exact absurd h4 (by decide)

theorem printItems_no_newline : ∀ (l : NodeList), wfL l = true → '\n' ∉ printItems l
  | .nil, _ => by simp [printItems]
  | .cons n .nil, h => by
    have hw : wfN n = true := by simpa [wfL] using h
    simpa [printItems] using printN_no_newline n hw
  | .cons n (.cons m l), h => by
    intro hmem
    obtain ⟨hn, hm, hl⟩ : wfN n = true ∧ wfN m = true ∧ wfL l = true := by
      simpa [wfL] using h
    simp only [printItems, List.mem_append, List.mem_cons] at hmem
    rcases hmem with h1 | h2 | h3 | h4
    · exact printN_no_newline n hn h1
    · exact absurd h2 (by decide)
    · exact absurd h3 (by decide)
    · exact printItems_no_newline (.cons m l) (by simp [wfL, hm, hl]) h4

theorem printPairs_no_newline : ∀ (p : PairList), wfP p = true → '\n' ∉ printPairs p
  | .nil, _ => by simp [printPairs]
  | .cons k v .nil, h => by
    intro hmem
    obtain ⟨hk, hv⟩ : wfN k = true ∧ wfN v = true := by simpa [wfP] using h
    simp only [printPairs, List.mem_append, List.mem_cons] at hmem
    rcases hmem with h1 | h2 | h3 | h4
    · exact printN_no_newline k hk h1
    · exact absurd h2 (by decide)
    · exact absurd h3 (by decide)
    · exact printN_no_newline v hv h4
  | .cons k v (.cons k2 v2 l), h => by
    intro hmem
    obtain ⟨hk, hv, hk2, hv2, hl⟩ :
        wfN k = true ∧ wfN v = true ∧ wfN k2 = true ∧ wfN v2 = true ∧ wfP l = true := by
      simpa [wfP] using h
    simp only [printPairs, List.mem_append, List.mem_cons] at hmem
    rcases hmem with h1 | h2 | h3 | h4 | h5 | h6 | h7
    · exact printN_no_newline k hk h1
    · exact absurd h2 (by decide)
    · exact absurd h3 (by decide)
    · exact printN_no_newline v hv h4
    · exact absurd h5 (by decide)
    · exact absurd h6 (by decide)
    · exact printPairs_no_newline (.cons k2 v2 l) (by simp [wfP, hk2, hv2, hl]) h7
end

mutual
theorem canonN_wf : ∀ (n : Node), wfN (canonN n) = wfN n
  | .scalar a v st => by simp [canonN, wfN]
  | .alias nm => by simp [canonN, wfN]
  | .seq a st items => by simp [canonN, wfN, canonL_wf items]
  | .map a st pairs => by simp [canonN, wfN, canonP_wf pairs]

theorem canonL_wf : ∀ (l : NodeList), wfL (canonL l) = wfL l
  | .nil => by simp [canonL, wfL]
  | .cons n l => by simp [canonL, wfL, canonN_wf n, canonL_wf l]

theorem canonP_wf : ∀ (p : PairList), wfP (canonP p) = wfP p
  | .nil => by simp [canonP, wfP]
  | .cons k v l => by simp [canonP, wfP, canonN_wf k, canonN_wf v, canonP_wf l]
end

theorem printN_head : ∀ n : Node,
    ∃ c tl, printN n = c :: tl ∧
      (c = '&' ∨ c = '"' ∨ c = '*' ∨ c = '[' ∨ c = lbrace)
  | .scalar none v st =>
    ⟨'"', escape v ++ ['"'], by simp [printN, ancPre], Or.inr (Or.inl rfl)⟩
  | .scalar (some nm) v st =>
    ⟨'&', (nm ++ [' ']) ++ ('"' :: (escape v ++ ['"'])), by simp [printN, ancPre],
      Or.inl rfl⟩
  | .alias nm => ⟨'*', nm, by simp [printN], Or.inr (Or.inr (Or.inl rfl))⟩
  | .seq none st items =>
    ⟨'[', printItems items ++ [']'], by simp [printN, ancPre],
      Or.inr (Or.inr (Or.inr (Or.inl rfl)))⟩
  | .seq (some nm) st items =>
    ⟨'&', (nm ++ [' ']) ++ ('[' :: (printItems items ++ [']'])), by simp [printN, ancPre],
      Or.inl rfl⟩
  | .map none st pairs =>
    ⟨lbrace, printPairs pairs ++ [rbrace], by simp [printN, ancPre],
      Or.inr (Or.inr (Or.inr (Or.inr rfl)))⟩
  | .map (some nm) st pairs =>
    ⟨'&', (nm ++ [' ']) ++ (lbrace :: (printPairs pairs ++ [rbrace])),
      by simp [printN, ancPre], Or.inl rfl⟩

theorem printN_ne_dashes3 (n : Node) : printN n ≠ dashes3 := by
  obtain ⟨c, tl, heq, hd⟩ := printN_head n
  rw [heq]
  intro hcon
  rw [dashes3] at hcon
  have hc : c = '-' := by injection hcon
  rcases hd with h | h | h | h | h <;> subst h <;> exact absurd hc (by decide)

theorem classify_printN (n : Node) : classify (printN n) = .flowLine := by
  obtain ⟨c, tl, heq, hd⟩ := printN_head n
  rw [heq]
  rw [classify.eq_def]
  rcases hd with h | h | h | h | h <;> subst h <;>
    simp [show ∀ x : Str, ¬ x = dashes3 → (x = dashes3) = False from fun x hx => eq_false hx,
      heq ▸ printN_ne_dashes3 n, dashes3, plainChar, List.takeWhile_cons, lbrace, rbrace]

theorem sizeL_pos : ∀ l : NodeList, 1 ≤ sizeL l
  | .nil => by simp [sizeL]
  | .cons n l => by simp only [sizeL]; omega

theorem sizeP_pos : ∀ p : PairList, 1 ≤ sizeP p
  | .nil => by simp [sizeP]
  | .cons k v l => by simp only [sizeP]; omega

theorem sizeN_ge_two : ∀ n : Node, 2 ≤ sizeN n
  | .scalar a v st => by simp [sizeN]
  | .alias nm => by simp [sizeN]
  | .seq a st items => by simp only [sizeN]; omega
  | .map a st pairs => by simp only [sizeN]; omega

mutual
theorem sizeN_le_print : ∀ n : Node, wfN n = true → sizeN n ≤ 2 * (printN n).length
  | .scalar a v st, h => by
    simp only [sizeN, printN, List.length_append, List.length_cons, List.length_nil]
    omega
  | .alias nm, h => by
    have hnm : nm ≠ [] := wfName_ne_nil nm (by simpa [wfN] using h)
    have hlen : 1 ≤ nm.length := List.length_pos.mpr hnm
    simp only [sizeN, printN, List.length_cons]
    omega
  | .seq a st items, h => by
    have hw : wfAnchor a = true ∧ wfL items = true := by simpa [wfN] using h
    have hL := sizeL_le_print items hw.2
    simp only [sizeN, printN, List.length_append, List.length_cons,
      List.length_singleton]
    omega
  | .map a st pairs, h => by
    have hw : wfAnchor a = true ∧ wfP pairs = true := by simpa [wfN] using h
    have hP := sizeP_le_print pairs hw.2
    simp only [sizeN, printN, List.length_append, List.length_cons,
      List.length_singleton]
    omega

theorem sizeL_le_print : ∀ l : NodeList, wfL l = true → sizeL l ≤ 2 * (printItems l).length + 2
  | .nil, _ => by simp [sizeL, printItems]
  | .cons n .nil, h => by
    have hw : wfN n = true := by simpa [wfL] using h
    have hN := sizeN_le_print n hw
    simp only [sizeL, printItems]
    have := sizeL_pos NodeList.nil
    simp only [sizeL] at this ⊢
    omega
  | .cons n (.cons m l), h => by
    obtain ⟨hn, hm, hl⟩ : wfN n = true ∧ wfN m = true ∧ wfL l = true := by
      simpa [wfL] using h
    have hN := sizeN_le_print n hn
    have hL := sizeL_le_print (.cons m l) (by simp [wfL, hm, hl])
    simp only [sizeL, printItems, List.length_append, List.length_cons] at hL ⊢
    omega

theorem sizeP_le_print : ∀ p : PairList, wfP p = true → sizeP p ≤ 2 * (printPairs p).length + 2
  | .nil, _ => by simp [sizeP, printPairs]
  | .cons k v .nil, h => by
    obtain ⟨hk, hv⟩ : wfN k = true ∧ wfN v = true := by simpa [wfP] using h
    have hK := sizeN_le_print k hk
    have hV := sizeN_le_print v hv
    simp only [sizeP, printPairs, List.length_append, List.length_cons]
    omega
  | .cons k v (.cons k2 v2 l), h => by
    obtain ⟨hk, hv, hk2, hv2, hl⟩ :
        wfN k = true ∧ wfN v = true ∧ wfN k2 = true ∧ wfN v2 = true ∧ wfP l = true := by
      simpa [wfP] using h
    have hK := sizeN_le_print k hk
    have hV := sizeN_le_print v hv
    have hL := sizeP_le_print (.cons k2 v2 l) (by simp [wfP, hk2, hv2, hl])
    simp only [sizeP, printPairs, List.length_append, List.length_cons] at hL ⊢
    omega
end

theorem parseNode_star (fuel : Nat) (xs : Str) :
    parseNode (fuel+1) ('*' :: xs) =
      (let name := xs.takeWhile isNameChar
       if name.isEmpty then none
       else some (.alias name, xs.dropWhile isNameChar)) := by
  rw [parseNode.eq_def]; simp

theorem parseNode_amp (fuel : Nat) (xs : Str) :
    parseNode (fuel+1) ('&' :: xs) =
      (let name := xs.takeWhile isNameChar
       if name.isEmpty then none
       else
         match xs.dropWhile isNameChar with
         | [] => none
         | d :: rest2 => if d = ' ' then parseBare fuel (some name) rest2 else none) := by
  rw [parseNode.eq_def]; simp

theorem parseNode_other (fuel : Nat) (c : Char) (xs : Str) (h1 : c ≠ '*') (h2 : c ≠ '&') :
    parseNode (fuel+1) (c :: xs) = parseBare fuel none (c :: xs) := by
  rw [parseNode.eq_def]; simp [h1, h2]

theorem parseBare_quote (fuel : Nat) (anc : Option Str) (xs : Str) :
    parseBare (fuel+1) anc ('"' :: xs) =
      (match parseQuoted xs with
       | some (v, r) => some (.scalar anc v .DoubleQuoted, r)
       | none => none) := by
  rw [parseBare.eq_def]; simp

theorem parseBare_lbracket (fuel : Nat) (anc : Option Str) (xs : Str) :
    parseBare (fuel+1) anc ('[' :: xs) =
      (match parseItems fuel xs with
       | some (l, r) => some (.seq anc .Flow l, r)
       | none => none) := by
  rw [parseBare.eq_def]; simp

theorem parseBare_lbrace (fuel : Nat) (anc : Option Str) (xs : Str) :
    parseBare (fuel+1) anc (lbrace :: xs) =
      (match parsePairs fuel xs with
       | some (p, r) => some (.map anc .Flow p, r)
       | none => none) := by
  rw [parseBare.eq_def]
  simp [show lbrace ≠ '"' by decide, show lbrace ≠ '[' by decide]

theorem parseItems_rbracket (fuel : Nat) (xs : Str) :
    parseItems (fuel+1) (']' :: xs) = some (.nil, xs) := by
  rw [parseItems.eq_def]; simp

theorem parseItems_other (fuel : Nat) (c : Char) (xs : Str) (h : c ≠ ']') :
    parseItems (fuel+1) (c :: xs) =
      (match parseNode fuel (c :: xs) with
       | some (n, r) =>
         match r with
         | [] => none
         | d :: r2 =>
           if d = ']' then some (.cons n .nil, r2)
           else if d = ',' then
             match parseItems fuel (dropOneSpace r2) with
             | some (l, r3) => some (.cons n l, r3)
             | none => none
           else none
       | none => none) := by
  rw [parseItems.eq_def]; simp [h]

theorem parsePairs_rbrace (fuel : Nat) (xs : Str) :
    parsePairs (fuel+1) (rbrace :: xs) = some (.nil, xs) := by
  rw [parsePairs.eq_def]; simp

theorem parsePairs_other (fuel : Nat) (c : Char) (xs : Str) (h : c ≠ rbrace) :
    parsePairs (fuel+1) (c :: xs) =
      (match parseNode fuel (c :: xs) with
       | some (k, r) =>
         (match r with
          | [] => none
          | d :: r2 =>
            if d = ':' then
              (match parseNode fuel (dropOneSpace r2) with
               | some (v, r3) =>
                 (match r3 with
                  | [] => none
                  | e :: r4 =>
                    if e = rbrace then some (.cons k v .nil, r4)
                    else if e = ',' then
                      match parsePairs fuel (dropOneSpace r4) with
                      | some (l, r5) => some (.cons k v l, r5)
                      | none => none
                    else none)
               | none => none)
            else none)
       | none => none) := by
  rw [parsePairs.eq_def]; simp [h]

theorem sepOk_cons (c : Char) (h : isNameChar c = false) (xs : Str) : sepOk (c :: xs) := by
  intro d hd
  rw [List.head?_cons, Option.some.injEq] at hd
  exact hd ▸ h

theorem parseRT : ∀ fuel : Nat,
    (∀ (n : Node) (rest : Str), wfN n = true → sepOk rest → sizeN n ≤ fuel →
      parseNode fuel (printN n ++ rest) = some (canonN n, rest))
    ∧ (∀ (l : NodeList) (rest : Str), wfL l = true → sizeL l ≤ fuel →
      parseItems fuel (printItems l ++ (']' :: rest)) = some (canonL l, rest))
    ∧ (∀ (p : PairList) (rest : Str), wfP p = true → sizeP p ≤ fuel →
      parsePairs fuel (printPairs p ++ (rbrace :: rest)) = some (canonP p, rest)) := by
  intro fuel
  induction fuel using Nat.strong_induction_on with
  | _ fuel ih =>
  refine ⟨?_, ?_, ?_⟩
  · -- nodes
    intro n rest hwf hsep hsz
    rcases n with ⟨a, v, st⟩ | nm | ⟨a, st, items⟩ | ⟨a, st, pairs⟩
    · -- scalar
      simp only [sizeN] at hsz
      obtain ⟨f, rfl⟩ : ∃ f, fuel = f + 1 + 1 := ⟨fuel - 2, by omega⟩
      cases a with
      | none =>
        have hp : printN (Node.scalar none v st) ++ rest =
            '"' :: (escape v ++ ('"' :: rest)) := by simp [printN, ancPre]
        have hstep := parseNode_other (f+1) '"' (escape v ++ ('"' :: rest))
          (by decide) (by decide)
        rw [hp, hstep, parseBare_quote, parseQuoted_escape]
        simp [canonN]
      | some nm =>
        have hwn : wfName nm = true := by simpa [wfN, wfAnchor] using hwf
        have hp : printN (Node.scalar (some nm) v st) ++ rest =
            '&' :: (nm ++ (' ' :: ('"' :: (escape v ++ ('"' :: rest))))) := by
          simp [printN, ancPre]
        rw [hp, parseNode_amp]
        obtain ⟨ht, hd⟩ := takeWhile_append_all isNameChar nm
          (' ' :: ('"' :: (escape v ++ ('"' :: rest)))) (wfName_mem nm hwn)
          (by intro c hc; rw [List.head?_cons, Option.some.injEq] at hc; subst hc; decide)
        simp only [ht, hd]
        have hne : nm.isEmpty = false := by
          cases nm with
          | nil => exact absurd hwn (by simp [wfName])
          | cons x xs => simp
        rw [hne]
        simp [parseBare_quote, parseQuoted_escape, canonN]
    · -- alias
      simp only [sizeN] at hsz
      have hwn : wfName nm = true := by simpa [wfN] using hwf
      obtain ⟨f, rfl⟩ : ∃ f, fuel = f + 1 := ⟨fuel - 1, by omega⟩
      have hp : printN (Node.alias nm) ++ rest = '*' :: (nm ++ rest) := by simp [printN]
      rw [hp, parseNode_star]
      obtain ⟨ht, hd⟩ := takeWhile_append_all isNameChar nm rest (wfName_mem nm hwn) hsep
      simp only [ht, hd]
      have hne : nm.isEmpty = false := by
        cases nm with
        | nil => exact absurd hwn (by simp [wfName])
        | cons x xs => simp
      rw [hne]
      simp [canonN]
    · -- seq
      simp only [sizeN] at hsz
      have hposL := sizeL_pos items
      obtain ⟨f, rfl⟩ : ∃ f, fuel = f + 1 + 1 := ⟨fuel - 2, by omega⟩
      have hI := (ih (f+1) (by omega)).2.1 items rest
      cases a with
      | none =>
        have hwl : wfL items = true := by simpa [wfN, wfAnchor] using hwf
        have hp : printN (Node.seq none st items) ++ rest =
            '[' :: (printItems items ++ (']' :: rest)) := by simp [printN, ancPre]
        have hstep := parseNode_other (f+1) '[' (printItems items ++ (']' :: rest))
          (by decide) (by decide)
        rw [hp, hstep, parseBare_lbracket]
        rw [(ih f (by omega)).2.1 items rest hwl (by omega)]
        simp [canonN]
      | some nm =>
        obtain ⟨hwn, hwl⟩ : wfName nm = true ∧ wfL items = true := by
          simpa [wfN, wfAnchor] using hwf
        have hp : printN (Node.seq (some nm) st items) ++ rest =
            '&' :: (nm ++ (' ' :: ('[' :: (printItems items ++ (']' :: rest))))) := by
          simp [printN, ancPre]
        rw [hp, parseNode_amp]
        obtain ⟨ht, hd⟩ := takeWhile_append_all isNameChar nm
          (' ' :: ('[' :: (printItems items ++ (']' :: rest)))) (wfName_mem nm hwn)
          (by intro c hc; rw [List.head?_cons, Option.some.injEq] at hc; subst hc; decide)
        simp only [ht, hd]
        have hne : nm.isEmpty = false := by
          cases nm with
          | nil => exact absurd hwn (by simp [wfName])
          | cons x xs => simp
        rw [hne]
        simp [parseBare_lbracket, (ih f (by omega)).2.1 items rest hwl (by omega), canonN]
    · -- map
      simp only [sizeN] at hsz
      have hposP := sizeP_pos pairs
      obtain ⟨f, rfl⟩ : ∃ f, fuel = f + 1 + 1 := ⟨fuel - 2, by omega⟩
      cases a with
      | none =>
        have hwp : wfP pairs = true := by simpa [wfN, wfAnchor] using hwf
        have hp : printN (Node.map none st pairs) ++ rest =
            lbrace :: (printPairs pairs ++ (rbrace :: rest)) := by simp [printN, ancPre]
        have hstep := parseNode_other (f+1) lbrace (printPairs pairs ++ (rbrace :: rest))
          (by decide) (by decide)
        rw [hp, hstep, parseBare_lbrace]
        rw [(ih f (by omega)).2.2 pairs rest hwp (by omega)]
        simp [canonN]
      | some nm =>
        obtain ⟨hwn, hwp⟩ : wfName nm = true ∧ wfP pairs = true := by
          simpa [wfN, wfAnchor] using hwf
        have hp : printN (Node.map (some nm) st pairs) ++ rest =
            '&' :: (nm ++ (' ' :: (lbrace :: (printPairs pairs ++ (rbrace :: rest))))) := by
          simp [printN, ancPre]
        rw [hp, parseNode_amp]
        obtain ⟨ht, hd⟩ := takeWhile_append_all isNameChar nm
          (' ' :: (lbrace :: (printPairs pairs ++ (rbrace :: rest)))) (wfName_mem nm hwn)
          (by intro c hc; rw [List.head?_cons, Option.some.injEq] at hc; subst hc; decide)
        simp only [ht, hd]
        have hne : nm.isEmpty = false := by
          cases nm with
          | nil => exact absurd hwn (by simp [wfName])
          | cons x xs => simp
        rw [hne]
        simp [parseBare_lbrace, (ih f (by omega)).2.2 pairs rest hwp (by omega), canonN]
  · -- items
    intro l rest hwf hsz
    rcases l with _ | ⟨n, tail⟩
    · simp only [sizeL] at hsz
      obtain ⟨f, rfl⟩ : ∃ f, fuel = f + 1 := ⟨fuel - 1, by omega⟩
      simp only [printItems, List.nil_append]
      rw [parseItems_rbracket]
      simp [canonL]
    · rcases tail with _ | ⟨m, tail2⟩
      · -- single item
        have hn : wfN n = true := by simpa [wfL] using hwf
        simp only [sizeL] at hsz
        have hpos := sizeN_ge_two n
        obtain ⟨f, rfl⟩ : ∃ f, fuel = f + 1 := ⟨fuel - 1, by omega⟩
        obtain ⟨c, tl, hc, hd⟩ := printN_head n
        have hcne : c ≠ ']' := by rcases hd with h|h|h|h|h <;> subst h <;> decide
        have hp : printItems (NodeList.cons n NodeList.nil) ++ (']' :: rest) =
            c :: (tl ++ (']' :: rest)) := by simp [printItems, hc]
        rw [hp, parseItems_other f c _ hcne]
        have hback : c :: (tl ++ (']' :: rest)) = printN n ++ (']' :: rest) := by
          rw [hc]; simp
        rw [hback]
        rw [(ih f (by omega)).1 n (']' :: rest) hn (sepOk_cons ']' (by decide) rest)
          (by omega)]
        simp [canonL]
      · -- two or more items
        obtain ⟨hn, hm, hl⟩ : wfN n = true ∧ wfN m = true ∧ wfL tail2 = true := by
          simpa [wfL] using hwf
        simp only [sizeL] at hsz
        have hpos := sizeN_ge_two n
        have hpos2 := sizeN_ge_two m
        have hpos3 := sizeL_pos tail2
        obtain ⟨f, rfl⟩ : ∃ f, fuel = f + 1 := ⟨fuel - 1, by omega⟩
        obtain ⟨c, tl, hc, hd⟩ := printN_head n
        have hcne : c ≠ ']' := by rcases hd with h|h|h|h|h <;> subst h <;> decide
        have hp : printItems (NodeList.cons n (NodeList.cons m tail2)) ++ (']' :: rest) =
            c :: (tl ++ (',' :: (' ' ::
              (printItems (NodeList.cons m tail2) ++ (']' :: rest))))) := by
          simp [printItems, hc]
        rw [hp, parseItems_other f c _ hcne]
        have hback : c :: (tl ++ (',' :: (' ' ::
            (printItems (NodeList.cons m tail2) ++ (']' :: rest))))) =
            printN n ++ (',' :: (' ' ::
              (printItems (NodeList.cons m tail2) ++ (']' :: rest)))) := by
          rw [hc]; simp
        rw [hback]
        rw [(ih f (by omega)).1 n _ hn (sepOk_cons ',' (by decide) _) (by omega)]
        simp [dropOneSpace,
          (ih f (by omega)).2.1 (NodeList.cons m tail2) rest (by simp [wfL, hm, hl])
            (by simp only [sizeL]; omega),
          canonL]
  · -- pairs
    intro p rest hwf hsz
    rcases p with _ | ⟨k, v, tail⟩
    · simp only [sizeP] at hsz
      obtain ⟨f, rfl⟩ : ∃ f, fuel = f + 1 := ⟨fuel - 1, by omega⟩
      simp only [printPairs, List.nil_append]
      rw [parsePairs_rbrace]
      simp [canonP]
    · rcases tail with _ | ⟨k2, v2, tail2⟩
      · -- single pair
        obtain ⟨hk, hv⟩ : wfN k = true ∧ wfN v = true := by simpa [wfP] using hwf
        simp only [sizeP] at hsz
        have hposk := sizeN_ge_two k
        have hposv := sizeN_ge_two v
        obtain ⟨f, rfl⟩ : ∃ f, fuel = f + 1 := ⟨fuel - 1, by omega⟩
        obtain ⟨c, tl, hc, hd⟩ := printN_head k
        have hcne : c ≠ rbrace := by rcases hd with h|h|h|h|h <;> subst h <;> decide
        have hp : printPairs (PairList.cons k v PairList.nil) ++ (rbrace :: rest) =
            c :: (tl ++ (':' :: (' ' :: (printN v ++ (rbrace :: rest))))) := by
          simp [printPairs, hc]
        rw [hp, parsePairs_other f c _ hcne]
        have hback : c :: (tl ++ (':' :: (' ' :: (printN v ++ (rbrace :: rest))))) =
            printN k ++ (':' :: (' ' :: (printN v ++ (rbrace :: rest)))) := by
          rw [hc]; simp
        rw [hback]
        rw [(ih f (by omega)).1 k _ hk (sepOk_cons ':' (by decide) _) (by omega)]
        simp [dropOneSpace,
          (ih f (by omega)).1 v (rbrace :: rest) hv (sepOk_cons rbrace (by decide) rest)
            (by omega),
          canonP]
      · -- two or more pairs
        obtain ⟨hk, hv, hk2, hv2, hl⟩ :
            wfN k = true ∧ wfN v = true ∧ wfN k2 = true ∧ wfN v2 = true ∧
              wfP tail2 = true := by simpa [wfP] using hwf
        simp only [sizeP] at hsz
        have hposk := sizeN_ge_two k
        have hposv := sizeN_ge_two v
        have hposk2 := sizeN_ge_two k2
        have hposv2 := sizeN_ge_two v2
        have hpos3 := sizeP_pos tail2
        obtain ⟨f, rfl⟩ : ∃ f, fuel = f + 1 := ⟨fuel - 1, by omega⟩
        obtain ⟨c, tl, hc, hd⟩ := printN_head k
        have hcne : c ≠ rbrace := by rcases hd with h|h|h|h|h <;> subst h <;> decide
        have hp : printPairs (PairList.cons k v (PairList.cons k2 v2 tail2)) ++
              (rbrace :: rest) =
            c :: (tl ++ (':' :: (' ' :: (printN v ++ (',' :: (' ' ::
              (printPairs (PairList.cons k2 v2 tail2) ++ (rbrace :: rest)))))))) := by
          simp [printPairs, hc]
        rw [hp, parsePairs_other f c _ hcne]
        have hback : c :: (tl ++ (':' :: (' ' :: (printN v ++ (',' :: (' ' ::
            (printPairs (PairList.cons k2 v2 tail2) ++ (rbrace :: rest)))))))) =
            printN k ++ (':' :: (' ' :: (printN v ++ (',' :: (' ' ::
              (printPairs (PairList.cons k2 v2 tail2) ++ (rbrace :: rest))))))) := by
          rw [hc]; simp
        rw [hback]
        rw [(ih f (by omega)).1 k _ hk (sepOk_cons ':' (by decide) _) (by omega)]
        simp [dropOneSpace, show ¬ (',' = rbrace) from by decide,
          (ih f (by omega)).1 v _ hv (sepOk_cons ',' (by decide) _) (by omega),
          (ih f (by omega)).2.2 (PairList.cons k2 v2 tail2) rest
            (by simp [wfP, hk2, hv2, hl]) (by simp only [sizeP]; omega),
          canonP]

theorem parseBare_plain (fuel : Nat) (anc : Option Str) (c : Char) (xs : Str)
    (h1 : c ≠ '"') (h2 : c ≠ '[') (h3 : c ≠ lbrace) :
    parseBare (fuel+1) anc (c :: xs) =
      (let v := (c :: xs).takeWhile plainChar
       if v.isEmpty then none
       else some (.scalar anc v .Plain, (c :: xs).dropWhile plainChar)) := by
  rw [parseBare.eq_def]; simp [h1, h2, h3]

theorem takeWhile_wfName (xs : Str) (h : (xs.takeWhile isNameChar).isEmpty = false) :
    wfName (xs.takeWhile isNameChar) = true := by
  rw [wfName]
  refine (Bool.and_eq_true _ _).mpr ⟨?_, ?_⟩
  · simp [h]
  · rw [List.all_eq_true]
    intro c hc
    exact List.mem_takeWhile_imp hc

theorem parse_wf : ∀ fuel : Nat,
    (∀ cs n r, parseNode fuel cs = some (n, r) → wfN n = true)
    ∧ (∀ anc cs n r, wfAnchor anc = true → parseBare fuel anc cs = some (n, r) →
        wfN n = true)
    ∧ (∀ cs l r, parseItems fuel cs = some (l, r) → wfL l = true)
    ∧ (∀ cs p r, parsePairs fuel cs = some (p, r) → wfP p = true) := by
  intro fuel
  induction fuel with
  | zero =>
    refine ⟨?_, ?_, ?_, ?_⟩ <;> intros cs <;> intros <;>
      simp_all [parseNode, parseBare, parseItems, parsePairs]
  | succ f ihf =>
    obtain ⟨ihN, ihB, ihI, ihP⟩ := ihf
    refine ⟨?_, ?_, ?_, ?_⟩
    · intro cs n r h
      cases cs with
      | nil => rw [parseNode.eq_def] at h; simp at h
      | cons c xs =>
        by_cases h1 : c = '*'
        · subst h1
          rw [parseNode_star] at h
          simp only at h
          by_cases h2 : (xs.takeWhile isNameChar).isEmpty = true
          · rw [if_pos h2] at h; exact absurd h (by simp)
          · rw [if_neg h2] at h
            simp only [Option.some.injEq, Prod.mk.injEq] at h
            obtain ⟨hn, hr⟩ := h
            subst hn
            simpa [wfN] using takeWhile_wfName xs (Bool.not_eq_true _ ▸ h2)
        · by_cases h2 : c = '&'
          · subst h2
            rw [parseNode_amp] at h
            simp only at h
            by_cases h3 : (xs.takeWhile isNameChar).isEmpty = true
            · rw [if_pos h3] at h; exact absurd h (by simp)
            · rw [if_neg h3] at h
              cases hdw : xs.dropWhile isNameChar with
              | nil => rw [hdw] at h; exact absurd h (by simp)
              | cons d r2 =>
                rw [hdw] at h
                dsimp only at h
                by_cases h4 : d = ' '
                · rw [if_pos h4] at h
                  refine ihB (some (xs.takeWhile isNameChar)) r2 n r ?_ h
                  simpa [wfAnchor] using takeWhile_wfName xs (Bool.not_eq_true _ ▸ h3)
                · rw [if_neg h4] at h; exact absurd h (by simp)
          · rw [parseNode_other f c xs h1 h2] at h
            exact ihB none _ _ _ (by simp [wfAnchor]) h
    · intro anc cs n r hanc h
      cases cs with
      | nil => rw [parseBare.eq_def] at h; simp at h
      | cons c xs =>
        by_cases h1 : c = '"'
        · subst h1
          rw [parseBare_quote] at h
          cases hq : parseQuoted xs with
          | none => rw [hq] at h; exact absurd h (by simp)
          | some vr =>
            obtain ⟨v, r2⟩ := vr
            rw [hq] at h
            simp only [Option.some.injEq, Prod.mk.injEq] at h
            obtain ⟨hn, hr⟩ := h
            subst hn
            simpa [wfN] using hanc
        · by_cases h2 : c = '['
          · subst h2
            rw [parseBare_lbracket] at h
            cases hI : parseItems f xs with
            | none => rw [hI] at h; exact absurd h (by simp)
            | some lr =>
              obtain ⟨l, r2⟩ := lr
              rw [hI] at h
              simp only [Option.some.injEq, Prod.mk.injEq] at h
              obtain ⟨hn, hr⟩ := h
              subst hn
              simp [wfN, hanc, ihI _ _ _ hI]
          · by_cases h3 : c = lbrace
            · subst h3
              rw [parseBare_lbrace] at h
              cases hP : parsePairs f xs with
              | none => rw [hP] at h; exact absurd h (by simp)
              | some pr =>
                obtain ⟨p, r2⟩ := pr
                rw [hP] at h
                simp only [Option.some.injEq, Prod.mk.injEq] at h
                obtain ⟨hn, hr⟩ := h
                subst hn
                simp [wfN, hanc, ihP _ _ _ hP]
            · rw [parseBare_plain f anc c xs h1 h2 h3] at h
              simp only at h
              by_cases h4 : ((c :: xs).takeWhile plainChar).isEmpty = true
              · rw [if_pos h4] at h; exact absurd h (by simp)
              · rw [if_neg h4] at h
                simp only [Option.some.injEq, Prod.mk.injEq] at h
                obtain ⟨hn, hr⟩ := h
                subst hn
                simpa [wfN] using hanc
    · intro cs l r h
      cases cs with
      | nil => rw [parseItems.eq_def] at h; simp at h
      | cons c xs =>
        by_cases h1 : c = ']'
        · subst h1
          rw [parseItems_rbracket] at h
          simp only [Option.some.injEq, Prod.mk.injEq] at h
          obtain ⟨hn, _⟩ := h
          subst hn
          simp [wfL]
        · rw [parseItems_other f c xs h1] at h
          cases hN : parseNode f (c :: xs) with
          | none => rw [hN] at h; exact absurd h (by simp)
          | some nr =>
            obtain ⟨n1, r1⟩ := nr
            rw [hN] at h
            cases r1 with
            | nil => exact absurd h (by simp)
            | cons d r2 =>
              dsimp only at h
              by_cases h2 : d = ']'
              · rw [if_pos h2] at h
                simp only [Option.some.injEq, Prod.mk.injEq] at h
                obtain ⟨hn, _⟩ := h
                subst hn
                simp [wfL, ihN _ _ _ hN]
              · rw [if_neg h2] at h
                by_cases h3 : d = ','
                · rw [if_pos h3] at h
                  cases hI : parseItems f (dropOneSpace r2) with
                  | none => rw [hI] at h; exact absurd h (by simp)
                  | some lr =>
                    obtain ⟨l2, r3⟩ := lr
                    rw [hI] at h
                    simp only [Option.some.injEq, Prod.mk.injEq] at h
                    obtain ⟨hn, _⟩ := h
                    subst hn
                    simp [wfL, ihN _ _ _ hN, ihI _ _ _ hI]
                · rw [if_neg h3] at h; exact absurd h (by simp)
    · intro cs p r h
      cases cs with
      | nil => rw [parsePairs.eq_def] at h; simp at h
      | cons c xs =>
        by_cases h1 : c = rbrace
        · subst h1
          rw [parsePairs_rbrace] at h
          simp only [Option.some.injEq, Prod.mk.injEq] at h
          obtain ⟨hn, _⟩ := h
          subst hn
          simp [wfP]
        · rw [parsePairs_other f c xs h1] at h
          cases hK : parseNode f (c :: xs) with
          | none => rw [hK] at h; exact absurd h (by simp)
          | some kr =>
            obtain ⟨k1, r1⟩ := kr
            rw [hK] at h
            cases r1 with
            | nil => exact absurd h (by simp)
            | cons d r2 =>
              dsimp only at h
              by_cases h2 : d = ':'
              · rw [if_pos h2] at h
                cases hV : parseNode f (dropOneSpace r2) with
                | none => rw [hV] at h; exact absurd h (by simp)
                | some vr =>
                  obtain ⟨v1, r3⟩ := vr
                  rw [hV] at h
                  cases r3 with
                  | nil => exact absurd h (by simp)
                  | cons e r4 =>
                    dsimp only at h
                    by_cases h3 : e = rbrace
                    · rw [if_pos h3] at h
                      simp only [Option.some.injEq, Prod.mk.injEq] at h
                      obtain ⟨hn, _⟩ := h
                      subst hn
                      simp [wfP, ihN _ _ _ hK, ihN _ _ _ hV]
                    · rw [if_neg h3] at h
                      by_cases h4 : e = ','
                      · rw [if_pos h4] at h
                        cases hP : parsePairs f (dropOneSpace r4) with
                        | none => rw [hP] at h; exact absurd h (by simp)
                        | some pr =>
                          obtain ⟨p2, r5⟩ := pr
                          rw [hP] at h
                          simp only [Option.some.injEq, Prod.mk.injEq] at h
                          obtain ⟨hn, _⟩ := h
                          subst hn
                          simp [wfP, ihN _ _ _ hK, ihN _ _ _ hV, ihP _ _ _ hP]
                      · rw [if_neg h4] at h; exact absurd h (by simp)
              · rw [if_neg h2] at h; exact absurd h (by simp)

theorem parseFlowLine_wf (l : Str) (n : Node) (h : parseFlowLine l = .ok n) :
    wfN n = true := by
  unfold parseFlowLine at h
  cases hp : parseNode (2 * l.length + 1) l with
  | none => rw [hp] at h; exact absurd h (by simp)
  | some nr =>
    obtain ⟨n1, r⟩ := nr
    rw [hp] at h
    cases r with
    | nil =>
      dsimp only at h
      simp only [Except.ok.injEq] at h
      subst h
      exact (parse_wf _).1 _ _ _ hp
    | cons d r2 => dsimp only at h; exact absurd h (by simp)

theorem parseSeqLines_wf : ∀ (ls : List Str) (items : NodeList),
    parseSeqLines ls = .ok items → wfL items = true := by
  intro ls
  induction ls with
  | nil =>
    intro items h
    unfold parseSeqLines at h
    simp only [Except.ok.injEq] at h
    subst h
    simp [wfL]
  | cons l ls2 ih =>
    intro items h
    unfold parseSeqLines at h
    cases hc : classify l with
    | seqItem r =>
      rw [hc] at h
      dsimp only at h
      cases hf : parseFlowLine r with
      | error e => rw [hf] at h; exact absurd h (by simp)
      | ok n =>
        rw [hf] at h
        cases hs : parseSeqLines ls2 with
        | error e => rw [hs] at h; exact absurd h (by simp)
        | ok tail =>
          rw [hs] at h
          simp only [Except.ok.injEq] at h
          subst h
          simp [wfL, parseFlowLine_wf r n hf, ih tail hs]
    | marker => rw [hc] at h; exact absurd h (by simp)
    | mapItem k r => rw [hc] at h; exact absurd h (by simp)
    | flowLine => rw [hc] at h; exact absurd h (by simp)

theorem parseMapLines_wf : ∀ (ls : List Str) (pairs : PairList),
    parseMapLines ls = .ok pairs → wfP pairs = true := by
  intro ls
  induction ls with
  | nil =>
    intro pairs h
    unfold parseMapLines at h
    simp only [Except.ok.injEq] at h
    subst h
    simp [wfP]
  | cons l ls2 ih =>
    intro pairs h
    unfold parseMapLines at h
    cases hc : classify l with
    | mapItem k r =>
      rw [hc] at h
      dsimp only at h
      cases hf : parseFlowLine r with
      | error e => rw [hf] at h; exact absurd h (by simp)
      | ok v =>
        rw [hf] at h
        cases hs : parseMapLines ls2 with
        | error e => rw [hs] at h; exact absurd h (by simp)
        | ok tail =>
          rw [hs] at h
          simp only [Except.ok.injEq] at h
          subst h
          simp [wfP, wfN, wfAnchor, parseFlowLine_wf r v hf, ih tail hs]
    | marker => rw [hc] at h; exact absurd h (by simp)
    | seqItem r => rw [hc] at h; exact absurd h (by simp)
    | flowLine => rw [hc] at h; exact absurd h (by simp)

theorem parseContent_wf (ls : List Str) (n : Node) (h : parseContent ls = .ok n) :
    wfN n = true := by
  cases ls with
  | nil => unfold parseContent at h; exact absurd h (by simp)
  | cons l ls2 =>
    unfold parseContent at h
    dsimp only at h
    cases hc : classify l with
    | seqItem r =>
      rw [hc] at h
      dsimp only at h
      cases hs : parseSeqLines (l :: ls2) with
      | error e => rw [hs] at h; exact absurd h (by simp)
      | ok items =>
        rw [hs] at h
        simp only [Except.ok.injEq] at h
        subst h
        simp [wfN, wfAnchor, parseSeqLines_wf _ _ hs]
    | mapItem k r =>
      rw [hc] at h
      dsimp only at h
      cases hs : parseMapLines (l :: ls2) with
      | error e => rw [hs] at h; exact absurd h (by simp)
      | ok pairs =>
        rw [hs] at h
        simp only [Except.ok.injEq] at h
        subst h
        simp [wfN, wfAnchor, parseMapLines_wf _ _ hs]
    | flowLine =>
      rw [hc] at h
      dsimp only at h
      cases ls2 with
      | nil => exact parseFlowLine_wf l n h
      | cons l2 ls3 => exact absurd h (by simp)
    | marker => rw [hc] at h; exact absurd h (by simp)

theorem parseDocsF_wf : ∀ (fuel : Nat) (b : Bool) (ls : List Str) (docs : List RawDoc),
    parseDocsF fuel b ls = .ok docs → wfDocs docs = true := by
  intro fuel
  induction fuel with
  | zero => intro b ls docs h; unfold parseDocsF at h; exact absurd h (by simp)
  | succ f ih =>
    intro b ls docs h
    cases ls with
    | nil =>
      unfold parseDocsF at h
      simp only [Except.ok.injEq] at h
      subst h
      simp [wfDocs]
    | cons l ls2 =>
      unfold parseDocsF at h
      by_cases h1 : l = dashes3
      · rw [if_pos h1] at h
        cases hct : parseContent (ls2.takeWhile (fun x => x ≠ dashes3)) with
        | error e => rw [hct] at h; exact absurd h (by simp)
        | ok n =>
          rw [hct] at h
          cases hds : parseDocsF f false (ls2.dropWhile (fun x => x ≠ dashes3)) with
          | error e => rw [hds] at h; exact absurd h (by simp)
          | ok ds =>
            rw [hds] at h
            simp only [Except.ok.injEq] at h
            subst h
            simp [wfDocs, parseContent_wf _ _ hct, ih _ _ _ hds]
      · rw [if_neg h1] at h
        by_cases h2 : b = true
        · rw [if_pos h2] at h
          cases hct : parseContent ((l :: ls2).takeWhile (fun x => x ≠ dashes3)) with
          | error e => rw [hct] at h; exact absurd h (by simp)
          | ok n =>
            rw [hct] at h
            cases hds : parseDocsF f false ((l :: ls2).dropWhile (fun x => x ≠ dashes3)) with
            | error e => rw [hds] at h; exact absurd h (by simp)
            | ok ds =>
              rw [hds] at h
              simp only [Except.ok.injEq] at h
              subst h
              simp [wfDocs, parseContent_wf _ _ hct, ih _ _ _ hds]
        · rw [if_neg h2] at h
          exact absurd h (by simp)

theorem flattenN_head : ∀ n : Node, ∃ e tl, flattenN n = e :: tl ∧
    ((∃ a t v st p q, e = Event.scalar a t v st p q) ∨ (∃ a2, e = Event.alias a2) ∨
     (∃ a t st, e = Event.sequenceStart a t st) ∨ (∃ a t st, e = Event.mappingStart a t st))
  | .scalar a v st =>
    ⟨Event.scalar a none v st (isPlainStyle st) (!isPlainStyle st), [], rfl,
      Or.inl ⟨a, none, v, st, _, _, rfl⟩⟩
  | .alias nm => ⟨Event.alias nm, [], rfl, Or.inr (Or.inl ⟨nm, rfl⟩)⟩
  | .seq a st items =>
    ⟨Event.sequenceStart a none st, flattenL items ++ [Event.sequenceEnd], rfl,
      Or.inr (Or.inr (Or.inl ⟨a, none, st, rfl⟩))⟩
  | .map a st pairs =>
    ⟨Event.mappingStart a none st, flattenP pairs ++ [Event.mappingEnd], rfl,
      Or.inr (Or.inr (Or.inr ⟨a, none, st, rfl⟩))⟩

theorem flattenN_len_pos (n : Node) : 1 ≤ (flattenN n).length := by
  obtain ⟨e, tl, heq, _⟩ := flattenN_head n
  rw [heq]
  simp

theorem takeItems_end (fuel : Nat) (xs : List Event) :
    takeItems (fuel+1) (.sequenceEnd :: xs) = some (.nil, xs) := by
  rw [takeItems.eq_def]

theorem takeItems_step (fuel : Nat) (e : Event) (tl : List Event)
    (h : e ≠ .sequenceEnd) :
    takeItems (fuel+1) (e :: tl) =
      (match takeNode fuel (e :: tl) with
       | some (n, r) =>
         match takeItems fuel r with
         | some (l, r2) => some (.cons n l, r2)
         | none => none
       | none => none) := by
  rw [takeItems.eq_def]
  dsimp only
  split
  · next rest heq =>
    injection heq with h1 h2
    exact absurd h1 h
  · rfl

theorem takePairs_end (fuel : Nat) (xs : List Event) :
    takePairs (fuel+1) (.mappingEnd :: xs) = some (.nil, xs) := by
  rw [takePairs.eq_def]

theorem takePairs_step (fuel : Nat) (e : Event) (tl : List Event)
    (h : e ≠ .mappingEnd) :
    takePairs (fuel+1) (e :: tl) =
      (match takeNode fuel (e :: tl) with
       | some (k, r) =>
         match takeNode fuel r with
         | some (v, r2) =>
           match takePairs fuel r2 with
           | some (l, r3) => some (.cons k v l, r3)
           | none => none
         | none => none
       | none => none) := by
  rw [takePairs.eq_def]
  dsimp only
  split
  · next rest heq =>
    injection heq with h1 h2
    exact absurd h1 h
  · rfl

theorem takeRT : ∀ fuel : Nat,
    (∀ (n : Node) (rest : List Event), (flattenN n).length ≤ fuel →
      takeNode fuel (flattenN n ++ rest) = some (n, rest))
    ∧ (∀ (l : NodeList) (rest : List Event), (flattenL l).length < fuel →
      takeItems fuel (flattenL l ++ (.sequenceEnd :: rest)) = some (l, rest))
    ∧ (∀ (p : PairList) (rest : List Event), (flattenP p).length < fuel →
      takePairs fuel (flattenP p ++ (.mappingEnd :: rest)) = some (p, rest)) := by
  intro fuel
  induction fuel with
  | zero =>
    refine ⟨?_, ?_, ?_⟩
    · intro n rest hlen; exact absurd hlen (by have := flattenN_len_pos n; omega)
    · intro l rest hlen; exact absurd hlen (by omega)
    · intro p rest hlen; exact absurd hlen (by omega)
  | succ f ihf =>
    obtain ⟨ihN, ihI, ihP⟩ := ihf
    refine ⟨?_, ?_, ?_⟩
    · intro n rest hlen
      rcases n with ⟨a, v, st⟩ | nm | ⟨a, st, items⟩ | ⟨a, st, pairs⟩
      · simp only [flattenN, List.cons_append, List.nil_append]
        rw [takeNode.eq_def]
      · simp only [flattenN, List.cons_append, List.nil_append]
        rw [takeNode.eq_def]
      · simp only [flattenN, List.length_cons, List.length_append,
          List.length_singleton] at hlen
        simp only [flattenN, List.cons_append, List.append_assoc,
          List.singleton_append, List.nil_append]
        rw [takeNode.eq_def]
        dsimp only
        rw [ihI items rest (by omega)]
      · simp only [flattenN, List.length_cons, List.length_append,
          List.length_singleton] at hlen
        simp only [flattenN, List.cons_append, List.append_assoc,
          List.singleton_append, List.nil_append]
        rw [takeNode.eq_def]
        dsimp only
        rw [ihP pairs rest (by omega)]
    · intro l rest hlen
      rcases l with _ | ⟨n, tail⟩
      · simp only [flattenL, List.nil_append]
        rw [takeItems_end]
      · simp only [flattenL, List.length_append] at hlen
        have hpos := flattenN_len_pos n
        obtain ⟨e, tl, heq, hshape⟩ := flattenN_head n
        have hne : e ≠ .sequenceEnd := by
          rcases hshape with ⟨a, t, v, st, p, q, rfl⟩ | ⟨a2, rfl⟩ | ⟨a, t, st, rfl⟩ |
            ⟨a, t, st, rfl⟩ <;> simp
        have hp : flattenN n ++ flattenL tail ++ (Event.sequenceEnd :: rest) =
            e :: (tl ++ (flattenL tail ++ (Event.sequenceEnd :: rest))) := by
          rw [heq]; simp
        simp only [flattenL, List.append_assoc] at hp ⊢
        rw [hp, takeItems_step f e _ hne]
        have hback : e :: (tl ++ (flattenL tail ++ (Event.sequenceEnd :: rest))) =
            flattenN n ++ (flattenL tail ++ (Event.sequenceEnd :: rest)) := by
          rw [heq]; simp
        rw [hback]
        rw [ihN n _ (by omega)]
        dsimp only
        rw [ihI tail rest (by omega)]
    · intro p rest hlen
      rcases p with _ | ⟨k, v, tail⟩
      · simp only [flattenP, List.nil_append]
        rw [takePairs_end]
      · simp only [flattenP, List.length_append] at hlen
        have hposk := flattenN_len_pos k
        have hposv := flattenN_len_pos v
        obtain ⟨e, tl, heq, hshape⟩ := flattenN_head k
        have hne : e ≠ .mappingEnd := by
          rcases hshape with ⟨a, t, v2, st, p2, q, rfl⟩ | ⟨a2, rfl⟩ | ⟨a, t, st, rfl⟩ |
            ⟨a, t, st, rfl⟩ <;> simp
        have hp : flattenN k ++ (flattenN v ++ flattenP tail) ++
              (Event.mappingEnd :: rest) =
            e :: (tl ++ (flattenN v ++ (flattenP tail ++ (Event.mappingEnd :: rest)))) := by
          rw [heq]; simp
        simp only [flattenP, List.append_assoc] at hp ⊢
        rw [hp, takePairs_step f e _ hne]
        have hback : e :: (tl ++ (flattenN v ++ (flattenP tail ++
              (Event.mappingEnd :: rest)))) =
            flattenN k ++ (flattenN v ++ (flattenP tail ++ (Event.mappingEnd :: rest))) := by
          rw [heq]; simp
        rw [hback]
        rw [ihN k _ (by omega)]
        dsimp only
        rw [ihN v _ (by omega)]
        dsimp only
        rw [ihP tail rest (by omega)]

theorem takeDocs_end (fuel : Nat) : takeDocs fuel [.streamEnd] = some [] := by
  rw [takeDocs.eq_def]
  cases fuel <;> rfl

theorem takeDocs_doc (fuel : Nat) (ver : Option YamlVersion) (impl : Bool)
    (xs : List Event) :
    takeDocs (fuel+1) (.documentStart ver impl :: xs) =
      (match takeNode (xs.length + 1) xs with
       | some (n, r) =>
         (match r with
          | .documentEnd :: r2 =>
            match takeDocs fuel r2 with
            | some ds => some (⟨impl, n⟩ :: ds)
            | none => none
          | _ => none)
       | none => none) := by
  rw [takeDocs.eq_def]

theorem flattenDocs_len (docs : List RawDoc) :
    docs.length ≤ (flattenDocs docs).length := by
  induction docs with
  | nil => simp [flattenDocs]
  | cons d ds ih =>
    simp only [flattenDocs, flattenDoc, List.length_append, List.length_cons,
      List.length_append, List.length_singleton]
    omega

theorem takeDocs_flatten : ∀ (docs : List RawDoc) (fuel : Nat), docs.length < fuel →
    takeDocs fuel (flattenDocs docs ++ [.streamEnd]) = some docs := by
  intro docs
  induction docs with
  | nil =>
    intro fuel hf
    simp only [flattenDocs, List.nil_append]
    exact takeDocs_end fuel
  | cons d ds ih =>
    intro fuel hf
    obtain ⟨f, rfl⟩ : ∃ f, fuel = f + 1 := ⟨fuel - 1, by omega⟩
    simp only [flattenDocs, flattenDoc, List.cons_append, List.append_assoc,
      List.singleton_append, List.nil_append]
    rw [takeDocs_doc]
    rw [takeRT _ |>.1 d.node _ (by simp [List.length_append]; omega)]
    dsimp only
    rw [ih f (by simpa using hf)]

theorem eventsToDocs_flatten (docs : List RawDoc) :
    eventsToDocs (flattenStream docs) = some docs := by
  unfold eventsToDocs flattenStream
  dsimp only
  exact takeDocs_flatten docs _
    (by have := flattenDocs_len docs; simp [List.length_append]; omega)

theorem parseFlowLine_print (n : Node) (hwf : wfN n = true) :
    parseFlowLine (printN n) = .ok (canonN n) := by
  unfold parseFlowLine
  have hrt := (parseRT (2 * (printN n).length + 1)).1 n [] hwf
    (by intro c hc; simp at hc)
    (by have := sizeN_le_print n hwf; omega)
  rw [List.append_nil] at hrt
  rw [hrt]

theorem parseContent_print (n : Node) (hwf : wfN n = true) :
    parseContent [printN n] = .ok (canonN n) := by
  unfold parseContent
  dsimp only
  rw [classify_printN]
  exact parseFlowLine_print n hwf

theorem docsLines_takeWhile (ds : List RawDoc) :
    ((ds.map printDocLines).flatten).takeWhile (fun x => x ≠ dashes3) = [] ∧
    ((ds.map printDocLines).flatten).dropWhile (fun x => x ≠ dashes3) =
      (ds.map printDocLines).flatten := by
  cases ds with
  | nil => simp
  | cons d ds2 =>
    simp only [List.map_cons, List.flatten_cons, printDocLines, List.cons_append]
    constructor
    · rw [List.takeWhile_cons]
      simp
    · rw [List.dropWhile_cons]
      simp

theorem parseDocsF_print : ∀ (docs : List RawDoc) (fuel : Nat) (b : Bool),
    wfDocs docs = true → ((docs.map printDocLines).flatten).length < fuel →
    parseDocsF fuel b ((docs.map printDocLines).flatten) = .ok (canonDocs docs) := by
  intro docs
  induction docs with
  | nil =>
    intro fuel b hwf hf
    obtain ⟨f, rfl⟩ : ∃ f, fuel = f + 1 := ⟨fuel - 1, by omega⟩
    simp [parseDocsF, canonDocs]
  | cons d ds ih =>
    intro fuel b hwf hf
    obtain ⟨hwn, hwds⟩ : wfN d.node = true ∧ wfDocs ds = true := by
      simpa [wfDocs] using hwf
    simp only [List.map_cons, List.flatten_cons, printDocLines, List.cons_append,
      List.singleton_append, List.nil_append, List.length_cons] at hf ⊢
    obtain ⟨f, rfl⟩ : ∃ f, fuel = f + 1 := ⟨fuel - 1, by omega⟩
    unfold parseDocsF
    rw [if_pos rfl]
    have hne := printN_ne_dashes3 d.node
    have hp1 : (fun x => decide (x ≠ dashes3)) (printN d.node) = true := by
      simp [hne]
    have htw : (printN d.node :: (ds.map printDocLines).flatten).takeWhile
        (fun x => x ≠ dashes3) = [printN d.node] := by
      rw [List.takeWhile_cons, if_pos hp1, (docsLines_takeWhile ds).1]
    have hdw : (printN d.node :: (ds.map printDocLines).flatten).dropWhile
        (fun x => x ≠ dashes3) = (ds.map printDocLines).flatten := by
      rw [List.dropWhile_cons, if_pos hp1, (docsLines_takeWhile ds).2]
    rw [htw, hdw, parseContent_print d.node hwn]
    dsimp only
    rw [ih f false hwds (by omega)]
    dsimp only
    rfl

theorem docsLines_no_newline (docs : List RawDoc) (hwf : wfDocs docs = true) :
    ∀ l ∈ (docs.map printDocLines).flatten, '\n' ∉ l := by
  induction docs with
  | nil => simp
  | cons d ds ih =>
    obtain ⟨hwn, hwds⟩ : wfN d.node = true ∧ wfDocs ds = true := by
      simpa [wfDocs] using hwf
    intro l hl
    simp only [List.map_cons, List.flatten_cons, printDocLines, List.cons_append,
      List.singleton_append, List.mem_cons] at hl
    rcases hl with rfl | rfl | hl
    · decide
    · exact printN_no_newline d.node hwn
    · exact ih hwds l hl

theorem splitLines_printStream (docs : List RawDoc) (hwf : wfDocs docs = true) :
    splitLines (printStream docs) = (docs.map printDocLines).flatten := by
  unfold printStream
  exact splitLines_flatten _ (docsLines_no_newline docs hwf)

theorem runCheck_cons (tbl : List Str) (e : Event) (es : List Event) :
    runCheck tbl (e :: es) =
      (match anchorOf e with
       | some a => if a ∈ tbl then .error .DuplicateAnchor else runCheck (a :: tbl) es
       | none =>
         (match e with
          | .alias n => if n ∈ tbl then runCheck tbl es else .error .UndefinedAlias
          | .documentEnd => runCheck [] es
          | _ => runCheck tbl es)) := rfl

theorem runCheck_append : ∀ (xs : List Event) (tbl : List Str) (ys : List Event),
    runCheck tbl (xs ++ ys) =
      (match runCheck tbl xs with
       | .ok t => runCheck t ys
       | .error e => .error e) := by
  intro xs
  induction xs with
  | nil => intro tbl ys; simp [runCheck]
  | cons e es ih =>
    intro tbl ys
    rw [List.cons_append, runCheck_cons tbl e (es ++ ys), runCheck_cons tbl e es]
    cases ha : anchorOf e with
    | some a =>
      dsimp only
      by_cases hm : a ∈ tbl
      · rw [if_pos hm, if_pos hm]
      · rw [if_neg hm, if_neg hm, ih]
    | none =>
      dsimp only
      rcases e with _ | _ | ⟨ver, impl⟩ | _ | nm | ⟨a, t, v, st, p, q⟩ |
        ⟨a, t, st⟩ | _ | ⟨a, t, st⟩ | _
      · exact ih tbl ys
      · exact ih tbl ys
      · exact ih tbl ys
      · exact ih [] ys
      · dsimp only
        by_cases hm : nm ∈ tbl
        · rw [if_pos hm, if_pos hm, ih]
        · rw [if_neg hm, if_neg hm]
      · exact ih tbl ys
      · exact ih tbl ys
      · exact ih tbl ys
      · exact ih tbl ys
      · exact ih tbl ys

mutual
theorem runCheckN_canon : ∀ (n : Node) (tbl : List Str) (rest : List Event),
    runCheck tbl (flattenN (canonN n) ++ rest) = runCheck tbl (flattenN n ++ rest)
  | .scalar a v st, tbl, rest => by
    cases a <;> simp [canonN, flattenN, runCheck_cons, anchorOf]
  | .alias nm, tbl, rest => rfl
  | .seq a st items, tbl, rest => by
    simp only [canonN, flattenN, List.cons_append, List.append_assoc,
      List.singleton_append]
    rw [runCheck_cons, runCheck_cons]
    cases a with
    | none =>
      dsimp only [anchorOf]
      exact runCheckL_canon items tbl _
    | some a2 =>
      dsimp only [anchorOf]
      by_cases hm : a2 ∈ tbl
      · rw [if_pos hm, if_pos hm]
      · rw [if_neg hm, if_neg hm]
        exact runCheckL_canon items (a2 :: tbl) _
  | .map a st pairs, tbl, rest => by
    simp only [canonN, flattenN, List.cons_append, List.append_assoc,
      List.singleton_append]
    rw [runCheck_cons, runCheck_cons]
    cases a with
    | none =>
      dsimp only [anchorOf]
      exact runCheckP_canon pairs tbl _
    | some a2 =>
      dsimp only [anchorOf]
      by_cases hm : a2 ∈ tbl
      · rw [if_pos hm, if_pos hm]
      · rw [if_neg hm, if_neg hm]
        exact runCheckP_canon pairs (a2 :: tbl) _

theorem runCheckL_canon : ∀ (l : NodeList) (tbl : List Str) (rest : List Event),
    runCheck tbl (flattenL (canonL l) ++ rest) = runCheck tbl (flattenL l ++ rest)
  | .nil, tbl, rest => rfl
  | .cons n l, tbl, rest => by
    simp only [canonL, flattenL, List.append_assoc]
    rw [runCheck_append, runCheck_append]
    rw [show runCheck tbl (flattenN (canonN n)) = runCheck tbl (flattenN n) from by
      have h := runCheckN_canon n tbl []
      simpa using h]
    cases runCheck tbl (flattenN n) with
    | ok t => dsimp only; exact runCheckL_canon l t rest
    | error e => rfl

theorem runCheckP_canon : ∀ (p : PairList) (tbl : List Str) (rest : List Event),
    runCheck tbl (flattenP (canonP p) ++ rest) = runCheck tbl (flattenP p ++ rest)
  | .nil, tbl, rest => rfl
  | .cons k v l, tbl, rest => by
    simp only [canonP, flattenP, List.append_assoc]
    rw [runCheck_append, runCheck_append]
    rw [show runCheck tbl (flattenN (canonN k)) = runCheck tbl (flattenN k) from by
      have h := runCheckN_canon k tbl []
      simpa using h]
    cases runCheck tbl (flattenN k) with
    | error e => rfl
    | ok t =>
      dsimp only
      rw [runCheck_append, runCheck_append]
      rw [show runCheck t (flattenN (canonN v)) = runCheck t (flattenN v) from by
        have h := runCheckN_canon v t []
        simpa using h]
      cases runCheck t (flattenN v) with
      | error e => rfl
      | ok t2 => dsimp only; exact runCheckP_canon l t2 rest
end

theorem runCheckDocs_canon : ∀ (docs : List RawDoc) (tbl : List Str) (rest : List Event),
    runCheck tbl (flattenDocs (canonDocs docs) ++ rest) =
      runCheck tbl (flattenDocs docs ++ rest) := by
  intro docs
  induction docs with
  | nil => intro tbl rest; rfl
  | cons d ds ih =>
    intro tbl rest
    simp only [canonDocs, flattenDocs, flattenDoc, List.cons_append, List.append_assoc,
      List.singleton_append]
    rw [runCheck_cons, runCheck_cons]
    dsimp only [anchorOf]
    rw [runCheckN_canon d.node tbl _]
    rw [runCheck_append, runCheck_append]
    cases runCheck tbl (flattenN d.node) with
    | error e => rfl
    | ok t =>
      dsimp only
      rw [runCheck_cons, runCheck_cons]
      dsimp only [anchorOf]
      exact ih [] rest

theorem runCheckStream_canon (docs : List RawDoc) :
    runCheck [] (flattenStream (canonDocs docs)) = runCheck [] (flattenStream docs) := by
  unfold flattenStream
  rw [runCheck_cons, runCheck_cons]
  dsimp only [anchorOf]
  exact runCheckDocs_canon docs [] [.streamEnd]

mutual
theorem semN_canon : ∀ n : Node,
    (flattenN (canonN n)).map sem = (flattenN n).map sem
  | .scalar a v st => by simp [canonN, flattenN, sem]
  | .alias nm => rfl
  | .seq a st items => by
    simp [canonN, flattenN, sem, List.map_append, semL_canon items]
  | .map a st pairs => by
    simp [canonN, flattenN, sem, List.map_append, semP_canon pairs]

theorem semL_canon : ∀ l : NodeList,
    (flattenL (canonL l)).map sem = (flattenL l).map sem
  | .nil => rfl
  | .cons n l => by
    simp [canonL, flattenL, List.map_append, semN_canon n, semL_canon l]

theorem semP_canon : ∀ p : PairList,
    (flattenP (canonP p)).map sem = (flattenP p).map sem
  | .nil => rfl
  | .cons k v l => by
    simp [canonP, flattenP, List.map_append, semN_canon k, semN_canon v, semP_canon l]
end

theorem semDocs_canon : ∀ docs : List RawDoc,
    (flattenDocs (canonDocs docs)).map sem = (flattenDocs docs).map sem := by
  intro docs
  induction docs with
  | nil => rfl
  | cons d ds ih =>
    simp [canonDocs, flattenDocs, flattenDoc, List.map_append, sem, semN_canon d.node, ih]

theorem semStream_canon (docs : List RawDoc) :
    (flattenStream (canonDocs docs)).map sem = (flattenStream docs).map sem := by
  unfold flattenStream
  simp [List.map_append, sem, semDocs_canon docs]

mutual
theorem bracketOkN : ∀ (n : Node) (stk : List BracketKind) (rest : List Event),
    bracketOk stk (flattenN n ++ rest) = bracketOk stk rest
  | .scalar a v st, stk, rest => rfl
  | .alias nm, stk, rest => rfl
  | .seq a st items, stk, rest => by
    simp only [flattenN, List.cons_append, List.append_assoc, List.singleton_append,
      List.nil_append]
    rw [show bracketOk stk (Event.sequenceStart a none st ::
          (flattenL items ++ (Event.sequenceEnd :: rest))) =
        bracketOk (BracketKind.seqB :: stk)
          (flattenL items ++ (Event.sequenceEnd :: rest)) from rfl]
    rw [bracketOkL items]
    rfl
  | .map a st pairs, stk, rest => by
    simp only [flattenN, List.cons_append, List.append_assoc, List.singleton_append,
      List.nil_append]
    rw [show bracketOk stk (Event.mappingStart a none st ::
          (flattenP pairs ++ (Event.mappingEnd :: rest))) =
        bracketOk (BracketKind.mapB :: stk)
          (flattenP pairs ++ (Event.mappingEnd :: rest)) from rfl]
    rw [bracketOkP pairs]
    rfl

theorem bracketOkL : ∀ (l : NodeList) (stk : List BracketKind) (rest : List Event),
    bracketOk stk (flattenL l ++ rest) = bracketOk stk rest
  | .nil, stk, rest => rfl
  | .cons n l, stk, rest => by
    simp only [flattenL, List.append_assoc]
    rw [bracketOkN n, bracketOkL l]

theorem bracketOkP : ∀ (p : PairList) (stk : List BracketKind) (rest : List Event),
    bracketOk stk (flattenP p ++ rest) = bracketOk stk rest
  | .nil, stk, rest => rfl
  | .cons k v l, stk, rest => by
    simp only [flattenP, List.append_assoc]
    rw [bracketOkN k, bracketOkN v, bracketOkP l]
end

mutual
theorem countsOkN : ∀ (n : Node) (s m : Nat) (rest : List Event),
    countsOk s m (flattenN n ++ rest) = countsOk s m rest
  | .scalar a v st, s, m, rest => rfl
  | .alias nm, s, m, rest => rfl
  | .seq a st items, s, m, rest => by
    simp only [flattenN, List.cons_append, List.append_assoc, List.singleton_append,
      List.nil_append]
    rw [show countsOk s m (Event.sequenceStart a none st ::
          (flattenL items ++ (Event.sequenceEnd :: rest))) =
        countsOk (s+1) m (flattenL items ++ (Event.sequenceEnd :: rest)) from rfl]
    rw [countsOkL items]
    rfl
  | .map a st pairs, s, m, rest => by
    simp only [flattenN, List.cons_append, List.append_assoc, List.singleton_append,
      List.nil_append]
    rw [show countsOk s m (Event.mappingStart a none st ::
          (flattenP pairs ++ (Event.mappingEnd :: rest))) =
        countsOk s (m+1) (flattenP pairs ++ (Event.mappingEnd :: rest)) from rfl]
    rw [countsOkP pairs]
    rfl

theorem countsOkL : ∀ (l : NodeList) (s m : Nat) (rest : List Event),
    countsOk s m (flattenL l ++ rest) = countsOk s m rest
  | .nil, s, m, rest => rfl
  | .cons n l, s, m, rest => by
    simp only [flattenL, List.append_assoc]
    rw [countsOkN n, countsOkL l]

theorem countsOkP : ∀ (p : PairList) (s m : Nat) (rest : List Event),
    countsOk s m (flattenP p ++ rest) = countsOk s m rest
  | .nil, s, m, rest => rfl
  | .cons k v l, s, m, rest => by
    simp only [flattenP, List.append_assoc]
    rw [countsOkN k, countsOkN v, countsOkP l]
end

theorem bracketOkDocs : ∀ (docs : List RawDoc) (stk : List BracketKind)
    (rest : List Event),
    bracketOk stk (flattenDocs docs ++ rest) = bracketOk stk rest := by
  intro docs
  induction docs with
  | nil => intro stk rest; rfl
  | cons d ds ih =>
    intro stk rest
    simp only [flattenDocs, flattenDoc, List.cons_append, List.append_assoc,
      List.singleton_append, List.nil_append]
    rw [show bracketOk stk (Event.documentStart none d.implicit ::
          (flattenN d.node ++ (Event.documentEnd :: (flattenDocs ds ++ rest)))) =
        bracketOk stk (flattenN d.node ++ (Event.documentEnd ::
          (flattenDocs ds ++ rest))) from rfl]
    rw [bracketOkN d.node]
    exact ih stk rest

theorem countsOkDocs : ∀ (docs : List RawDoc) (s m : Nat) (rest : List Event),
    countsOk s m (flattenDocs docs ++ rest) = countsOk s m rest := by
  intro docs
  induction docs with
  | nil => intro s m rest; rfl
  | cons d ds ih =>
    intro s m rest
    simp only [flattenDocs, flattenDoc, List.cons_append, List.append_assoc,
      List.singleton_append, List.nil_append]
    rw [show countsOk s m (Event.documentStart none d.implicit ::
          (flattenN d.node ++ (Event.documentEnd :: (flattenDocs ds ++ rest)))) =
        countsOk s m (flattenN d.node ++ (Event.documentEnd ::
          (flattenDocs ds ++ rest))) from rfl]
    rw [countsOkN d.node]
    exact ih s m rest

theorem bracketOk_flattenStream (docs : List RawDoc) :
    bracketOk [] (flattenStream docs) = true := by
  unfold flattenStream
  rw [show bracketOk [] (Event.streamStart :: (flattenDocs docs ++ [Event.streamEnd])) =
    bracketOk [] (flattenDocs docs ++ [Event.streamEnd]) from rfl]
  rw [bracketOkDocs docs [] [Event.streamEnd]]
  rfl

theorem countsOk_flattenStream (docs : List RawDoc) :
    countsOk 0 0 (flattenStream docs) = true := by
  unfold flattenStream
  rw [show countsOk 0 0 (Event.streamStart :: (flattenDocs docs ++ [Event.streamEnd])) =
    countsOk 0 0 (flattenDocs docs ++ [Event.streamEnd]) from rfl]
  rw [countsOkDocs docs 0 0 [Event.streamEnd]]
  rfl

theorem countsOk_cons (s m : Nat) (e : Event) (es : List Event) :
    countsOk s m (e :: es) =
      (match e with
       | .sequenceStart _ _ _ => countsOk (s+1) m es
       | .sequenceEnd =>
         (match s with
          | 0 => false
          | s2+1 => countsOk s2 m es)
       | .mappingStart _ _ _ => countsOk s (m+1) es
       | .mappingEnd =>
         (match m with
          | 0 => false
          | m2+1 => countsOk s m2 es)
       | _ => countsOk s m es) := rfl

theorem countsOk_take : ∀ (p q : List Event) (s m : Nat),
    countsOk s m (p ++ q) = true →
    countSeqEnd p ≤ s + countSeqStart p ∧ countMapEnd p ≤ m + countMapStart p := by
  intro p
  induction p with
  | nil =>
    intro q s m h
    simp [countSeqEnd, countSeqStart, countMapEnd, countMapStart]
  | cons e p2 ih =>
    intro q s m h
    rw [List.cons_append, countsOk_cons] at h
    rcases e with _ | _ | ⟨ver, impl⟩ | _ | nm | ⟨a, t, v, st, pp, qq⟩ |
      ⟨a, t, st⟩ | _ | ⟨a, t, st⟩ | _
    all_goals dsimp only at h
    all_goals simp only [countSeqEnd, countSeqStart, countMapEnd, countMapStart,
      List.countP_cons] at ih ⊢
    · have := ih q s m h; simp; omega
    · have := ih q s m h; simp; omega
    · have := ih q s m h; simp; omega
    · have := ih q s m h; simp; omega
    · have := ih q s m h; simp; omega
    · have := ih q s m h; simp; omega
    · have := ih q (s+1) m h; simp; omega
    · cases s with
      | zero => exact absurd h (by simp)
      | succ s2 => have := ih q s2 m h; simp; omega
    · have := ih q s (m+1) h; simp; omega
    · cases m with
      | zero => exact absurd h (by simp)
      | succ m2 => have := ih q s m2 h; simp; omega

theorem bracketOk_cons (stk : List BracketKind) (e : Event) (es : List Event) :
    bracketOk stk (e :: es) =
      (match e with
       | .sequenceStart _ _ _ => bracketOk (.seqB :: stk) es
       | .sequenceEnd =>
         (match stk with
          | .seqB :: stk2 => bracketOk stk2 es
          | _ => false)
       | .mappingStart _ _ _ => bracketOk (.mapB :: stk) es
       | .mappingEnd =>
         (match stk with
          | .mapB :: stk2 => bracketOk stk2 es
          | _ => false)
       | _ => bracketOk stk es) := rfl

theorem bracketOk_count : ∀ (es : List Event) (stk : List BracketKind),
    bracketOk stk es = true →
    countSeqStart es + stk.count BracketKind.seqB = countSeqEnd es ∧
    countMapStart es + stk.count BracketKind.mapB = countMapEnd es := by
  intro es
  induction es with
  | nil =>
    intro stk h
    cases stk with
    | nil => simp [countSeqStart, countSeqEnd, countMapStart, countMapEnd]
    | cons b stk2 => exact absurd h (by simp [bracketOk])
  | cons e es2 ih =>
    intro stk h
    rw [bracketOk_cons] at h
    rcases e with _ | _ | ⟨ver, impl⟩ | _ | nm | ⟨a, t, v, st, pp, qq⟩ |
      ⟨a, t, st⟩ | _ | ⟨a, t, st⟩ | _
    all_goals dsimp only at h
    all_goals simp only [countSeqEnd, countSeqStart, countMapEnd, countMapStart,
      List.countP_cons] at ih ⊢
    · have := ih stk h; simp; omega
    · have := ih stk h; simp; omega
    · have := ih stk h; simp; omega
    · have := ih stk h; simp; omega
    · have := ih stk h; simp; omega
    · have := ih stk h; simp; omega
    · have := ih (.seqB :: stk) h
      simp only [List.count_cons, show (BracketKind.seqB == BracketKind.seqB) = true from
        rfl, show (BracketKind.mapB == BracketKind.seqB) = false from rfl,
        show (BracketKind.seqB == BracketKind.mapB) = false from rfl, if_true,
        Bool.false_eq_true, if_false] at this
      simp
      omega
    · cases stk with
      | nil => exact absurd h (by simp)
      | cons b stk2 =>
        cases b with
        | seqB =>
          have := ih stk2 h
          simp only [List.count_cons, show (BracketKind.seqB == BracketKind.seqB) = true
            from rfl, show (BracketKind.seqB == BracketKind.mapB) = false from rfl,
            if_true, Bool.false_eq_true, if_false]
          simp
          omega
        | mapB => exact absurd h (by simp)
    · have := ih (.mapB :: stk) h
      simp only [List.count_cons, show (BracketKind.mapB == BracketKind.mapB) = true from
        rfl, show (BracketKind.seqB == BracketKind.mapB) = false from rfl,
        show (BracketKind.mapB == BracketKind.seqB) = false from rfl, if_true,
        Bool.false_eq_true, if_false] at this
      simp
      omega
    · cases stk with
      | nil => exact absurd h (by simp)
      | cons b stk2 =>
        cases b with
        | mapB =>
          have := ih stk2 h
          simp only [List.count_cons, show (BracketKind.mapB == BracketKind.mapB) = true
            from rfl, show (BracketKind.mapB == BracketKind.seqB) = false from rfl,
            if_true, Bool.false_eq_true, if_false]
          simp
          omega
        | seqB => exact absurd h (by simp)

theorem parseLC_ok (cs : Str) (es : List Event) (h : parseLC cs = .ok es) :
    ∃ docs tbl, parseDocs true (splitLines cs) = .ok docs ∧
      es = flattenStream docs ∧ runCheck [] (flattenStream docs) = .ok tbl := by
  unfold parseLC at h
  cases hd : parseDocs true (splitLines cs) with
  | error e => rw [hd] at h; exact absurd h (by simp)
  | ok docs =>
    rw [hd] at h
    dsimp only at h
    cases hc : runCheck [] (flattenStream docs) with
    | error e => rw [hc] at h; exact absurd h (by simp)
    | ok tbl =>
      rw [hc] at h
      dsimp only at h
      simp only [Except.ok.injEq] at h
      exact ⟨docs, tbl, rfl, h.symm, hc⟩

theorem runCheck_split (p : List Event) (e : Event) (q : List Event) (tbl : List Str)
    (h : runCheck [] (p ++ e :: q) = .ok tbl) :
    ∃ t, runCheck [] p = .ok t ∧ runCheck t (e :: q) = .ok tbl := by
  rw [runCheck_append] at h
  cases hp : runCheck [] p with
  | error er => rw [hp] at h; exact absurd h (by simp)
  | ok t => rw [hp] at h; exact ⟨t, rfl, h⟩

/-- Claim C1: round-trip fidelity — for every well-formed document `D` (one the
modelled parser accepts), emitting the parsed event sequence yields a text
whose parse is structurally equivalent to the original event sequence: the
two agree after erasing presentation detail (`sem`), so values, anchors and
structure are preserved while styles may normalize. -/
theorem claim_C1_round_trip : ∀ (D : String) (es : List Event), parse D = .ok es →
    ∃ t : String, emit es = .ok t ∧
      ∃ es2 : List Event, parse t = .ok es2 ∧ es2.map sem = es.map sem := by
  intro D es hparse
  obtain ⟨docs, tbl, hdocs, hes, hcheck⟩ := parseLC_ok _ _ hparse
  subst hes
  have hwf : wfDocs docs = true := parseDocsF_wf _ _ _ _ hdocs
  have hemit : emit (flattenStream docs) = .ok (String.mk (printStream docs)) := by
    unfold emit
    rw [eventsToDocs_flatten]
  refine ⟨String.mk (printStream docs), hemit,
    flattenStream (canonDocs docs), ?_, semStream_canon docs⟩
  unfold parse parseLC
  rw [show (String.mk (printStream docs)).toList = printStream docs from rfl]
  rw [splitLines_printStream docs hwf]
  unfold parseDocs
  rw [parseDocsF_print docs _ true hwf (by omega)]
  dsimp only
  rw [runCheckStream_canon docs, hcheck]

/-- Witness for C1 at the concrete document `key: value` from the spec. -/
theorem claim_C1_round_trip_witness :
    ∃ t : String, emit [.streamStart, .documentStart none true,
        .mappingStart none none .Block,
        .scalar none none "key".toList .Plain true false,
        .scalar none none "value".toList .Plain true false,
        .mappingEnd, .documentEnd, .streamEnd] = .ok t ∧
      ∃ es2 : List Event, parse t = .ok es2 ∧
        es2.map sem = ([.streamStart, .documentStart none true,
          .mappingStart none none .Block,
          .scalar none none "key".toList .Plain true false,
          .scalar none none "value".toList .Plain true false,
          .mappingEnd, .documentEnd, .streamEnd] : List Event).map sem :=
  claim_C1_round_trip "key: value\n" _ rfl

/-- Claim C2: a `ScalarEvent` carries exactly an optional anchor, an optional
tag, a raw value, a style drawn from the five styles Plain, SingleQuoted,
DoubleQuoted, Literal, Folded, and the two independent implicit flags; every
public property returns the corresponding stored constructor argument, and
the six properties determine the event completely (no further data). -/
theorem claim_C2_scalar_event :
    (∀ (v : Str) (t a : Option Str) (st : ScalarStyle) (p q : Bool),
        (ScalarEvent.make v t a st p q).Anchor = a ∧
        (ScalarEvent.make v t a st p q).Tag = t ∧
        (ScalarEvent.make v t a st p q).Value = v ∧
        (ScalarEvent.make v t a st p q).Style = st ∧
        (ScalarEvent.make v t a st p q).IsPlainImplicit = p ∧
        (ScalarEvent.make v t a st p q).IsQuotedImplicit = q)
    ∧ (∀ s : ScalarStyle, s = .Plain ∨ s = .SingleQuoted ∨ s = .DoubleQuoted ∨
        s = .Literal ∨ s = .Folded)
    ∧ (∀ e1 e2 : ScalarEvent, e1.Anchor = e2.Anchor → e1.Tag = e2.Tag →
        e1.Value = e2.Value → e1.Style = e2.Style →
        e1.IsPlainImplicit = e2.IsPlainImplicit →
        e1.IsQuotedImplicit = e2.IsQuotedImplicit → e1 = e2) := by
  refine ⟨?_, ?_, ?_⟩
  · intro v t a st p q
    exact ⟨rfl, rfl, rfl, rfl, rfl, rfl⟩
  · intro s
    cases s
    · exact Or.inl rfl
    · exact Or.inr (Or.inl rfl)
    · exact Or.inr (Or.inr (Or.inl rfl))
    · exact Or.inr (Or.inr (Or.inr (Or.inl rfl)))
    · exact Or.inr (Or.inr (Or.inr (Or.inr rfl)))
  · intro e1 e2 h1 h2 h3 h4 h5 h6
    cases e1
    cases e2
    simp only [ScalarEvent.Anchor, ScalarEvent.Tag, ScalarEvent.Value,
      ScalarEvent.Style, ScalarEvent.IsPlainImplicit,
      ScalarEvent.IsQuotedImplicit] at h1 h2 h3 h4 h5 h6
    subst h1; subst h2; subst h3; subst h4; subst h5; subst h6
    rfl

/-- Witness for C2 at concrete events. -/
theorem claim_C2_scalar_event_witness :
    (ScalarEvent.make ['x'] none none .Plain true false).Value = ['x'] ∧
    ScalarEvent.make ['x'] none none .Plain true false =
      ScalarEvent.make ['x'] none none .Plain true false :=
  ⟨(claim_C2_scalar_event.1 ['x'] none none .Plain true false).2.2.1,
   claim_C2_scalar_event.2.2 _ _ rfl rfl rfl rfl rfl rfl⟩

/-- Claim C3: a `DocumentStartEvent` carries an optional YAML version
(major, minor) and an implicit flag; the flag is true exactly when no `---`
marker was present in the source; the two properties return the stored
fields and determine the event completely, so no tag-directive data is
exposed through any constructor or property (the header only carries the
`TODO: Tag directives` comment). -/
theorem claim_C3_document_start :
    (∀ (v : Option YamlVersion) (b : Bool),
        (DocumentStartEvent.make v b).Version = v ∧
        (DocumentStartEvent.make v b).IsImplicit = b)
    ∧ (∀ (ma mi : Nat), (YamlVersion.mk ma mi).major = ma ∧
        (YamlVersion.mk ma mi).minor = mi)
    ∧ (∀ e1 e2 : DocumentStartEvent, e1.Version = e2.Version →
        e1.IsImplicit = e2.IsImplicit → e1 = e2)
    ∧ parse "key: value\n" = .ok [.streamStart, .documentStart none true,
        .mappingStart none none .Block,
        .scalar none none "key".toList .Plain true false,
        .scalar none none "value".toList .Plain true false,
        .mappingEnd, .documentEnd, .streamEnd]
    ∧ parse "---\nkey: value\n" = .ok [.streamStart, .documentStart none false,
        .mappingStart none none .Block,
        .scalar none none "key".toList .Plain true false,
        .scalar none none "value".toList .Plain true false,
        .mappingEnd, .documentEnd, .streamEnd] := by
  refine ⟨fun v b => ⟨rfl, rfl⟩, fun ma mi => ⟨rfl, rfl⟩, ?_, rfl, rfl⟩
  intro e1 e2 h1 h2
  cases e1
  cases e2
  simp only [DocumentStartEvent.Version, DocumentStartEvent.IsImplicit] at h1 h2
  subst h1; subst h2
  rfl

/-- Witness for C3 at a concrete event. -/
theorem claim_C3_document_start_witness :
    (DocumentStartEvent.make none true).Version = none ∧
    DocumentStartEvent.make none true = DocumentStartEvent.make none true :=
  ⟨(claim_C3_document_start.1 none true).1,
   claim_C3_document_start.2.2.1 _ _ rfl rfl⟩

/-- Claim C4: balance invariant — for every event stream the parser
produces, on every prefix the number of `SequenceEnd` (resp. `MappingEnd`)
events never exceeds the number of `SequenceStart` (resp. `MappingStart`)
events, the totals agree over the whole stream, and the start/end events
form a properly nested bracket structure (each start matched by exactly one
end of the same kind at the same depth). -/
theorem claim_C4_balance : ∀ (D : String) (es : List Event), parse D = .ok es →
    (∀ p q, es = p ++ q →
      countSeqEnd p ≤ countSeqStart p ∧ countMapEnd p ≤ countMapStart p)
    ∧ countSeqStart es = countSeqEnd es ∧ countMapStart es = countMapEnd es
    ∧ bracketOk [] es = true := by
  intro D es hparse
  obtain ⟨docs, tbl, hdocs, hes, hcheck⟩ := parseLC_ok _ _ hparse
  subst hes
  have hc := countsOk_flattenStream docs
  have hb := bracketOk_flattenStream docs
  have htot := bracketOk_count _ [] hb
  refine ⟨?_, ?_, ?_, hb⟩
  · intro p q hpq
    have h2 : countsOk 0 0 (p ++ q) = true := by rw [← hpq]; exact hc
    have h3 := countsOk_take p q 0 0 h2
    omega
  · have h1 := htot.1
    simpa using h1
  · have h1 := htot.2
    simpa using h1

/-- Witness for C4 at the concrete document `key: value`. -/
theorem claim_C4_balance_witness :
    countSeqStart [Event.streamStart, Event.documentStart none true,
      Event.mappingStart none none .Block,
      Event.scalar none none "key".toList .Plain true false,
      Event.scalar none none "value".toList .Plain true false,
      Event.mappingEnd, Event.documentEnd, Event.streamEnd] =
    countSeqEnd [Event.streamStart, Event.documentStart none true,
      Event.mappingStart none none .Block,
      Event.scalar none none "key".toList .Plain true false,
      Event.scalar none none "value".toList .Plain true false,
      Event.mappingEnd, Event.documentEnd, Event.streamEnd] ∧
    bracketOk [] [Event.streamStart, Event.documentStart none true,
      Event.mappingStart none none .Block,
      Event.scalar none none "key".toList .Plain true false,
      Event.scalar none none "value".toList .Plain true false,
      Event.mappingEnd, Event.documentEnd, Event.streamEnd] = true :=
  ⟨(claim_C4_balance "key: value\n" _ rfl).2.1,
   (claim_C4_balance "key: value\n" _ rfl).2.2.2⟩

/-- Claim C5: alias resolution — in every successfully parsed stream, each
`Alias` event refers to an anchor present in the parser anchor table built
from the events before it (an anchor defined earlier in the same document,
since the table is cleared at `DocumentEnd`); conversely an alias to a name
absent from the table fails with `ParseError.UndefinedAlias` at parse time,
and the two concrete spec scenarios behave accordingly. -/
theorem claim_C5_alias_resolution :
    (∀ (D : String) (es p q : List Event) (a : Str), parse D = .ok es →
        es = p ++ Event.alias a :: q →
        ∃ t, runCheck [] p = .ok t ∧ a ∈ t)
    ∧ (∀ (tbl : List Str) (p q : List Event) (a : Str) (t : List Str),
        runCheck tbl p = .ok t → a ∉ t →
        runCheck tbl (p ++ Event.alias a :: q) = .error .UndefinedAlias)
    ∧ parse "- &a x\n- *a\n" = .ok [.streamStart, .documentStart none true,
        .sequenceStart none none .Block,
        .scalar (some ['a']) none ['x'] .Plain true false,
        .alias ['a'], .sequenceEnd, .documentEnd, .streamEnd]
    ∧ parse "- *b\n- &b x\n" = .error .UndefinedAlias := by
  refine ⟨?_, ?_, rfl, rfl⟩
  · intro D es p q a hparse heq
    obtain ⟨docs, tbl, hdocs, hes, hcheck⟩ := parseLC_ok _ _ hparse
    rw [← hes, heq] at hcheck
    obtain ⟨t, hp, hstep⟩ := runCheck_split p _ q tbl hcheck
    refine ⟨t, hp, ?_⟩
    rw [runCheck_cons] at hstep
    dsimp only [anchorOf] at hstep
    by_cases hm : a ∈ t
    · exact hm
    · rw [if_neg hm] at hstep
      exact absurd hstep (by simp)
  · intro tbl p q a t hp hnot
    rw [runCheck_append, hp]
    dsimp only
    rw [runCheck_cons]
    dsimp only [anchorOf]
    rw [if_neg hnot]

/-- Witness for C5 at the concrete document `- &a x / - *a`. -/
theorem claim_C5_alias_resolution_witness :
    ∃ t, runCheck [] [Event.streamStart, Event.documentStart none true,
        Event.sequenceStart none none .Block,
        Event.scalar (some ['a']) none ['x'] .Plain true false] = .ok t ∧
      ['a'] ∈ t :=
  claim_C5_alias_resolution.1 "- &a x\n- *a\n"
    [.streamStart, .documentStart none true, .sequenceStart none none .Block,
      .scalar (some ['a']) none ['x'] .Plain true false,
      .alias ['a'], .sequenceEnd, .documentEnd, .streamEnd]
    [.streamStart, .documentStart none true, .sequenceStart none none .Block,
      .scalar (some ['a']) none ['x'] .Plain true false]
    [.sequenceEnd, .documentEnd, .streamEnd] ['a'] rfl rfl

/-- Claim C6: duplicate anchors — in every successfully parsed stream, the
anchor carried by a node event is never already present in the parser
anchor table built from the events before it (anchors are unique within a
document); redefining an anchor already in the table fails with
`ParseError.DuplicateAnchor`, detected by `parse` itself (parse time, not a
later composition phase), as the concrete scenario shows. -/
theorem claim_C6_duplicate_anchor :
    (∀ (D : String) (es p q : List Event) (e : Event) (a : Str),
        parse D = .ok es → es = p ++ e :: q → anchorOf e = some a →
        ∃ t, runCheck [] p = .ok t ∧ a ∉ t)
    ∧ (∀ (tbl : List Str) (p q : List Event) (e : Event) (a : Str) (t : List Str),
        runCheck tbl p = .ok t → anchorOf e = some a → a ∈ t →
        runCheck tbl (p ++ e :: q) = .error .DuplicateAnchor)
    ∧ parse "- &a x\n- &a y\n" = .error .DuplicateAnchor := by
  refine ⟨?_, ?_, rfl⟩
  · intro D es p q e a hparse heq ha
    obtain ⟨docs, tbl, hdocs, hes, hcheck⟩ := parseLC_ok _ _ hparse
    rw [← hes, heq] at hcheck
    obtain ⟨t, hp, hstep⟩ := runCheck_split p _ q tbl hcheck
    refine ⟨t, hp, ?_⟩
    rw [runCheck_cons, ha] at hstep
    dsimp only at hstep
    by_cases hm : a ∈ t
    · rw [if_pos hm] at hstep
      exact absurd hstep (by simp)
    · exact hm
  · intro tbl p q e a t hp ha hm
    rw [runCheck_append, hp]
    dsimp only
    rw [runCheck_cons, ha]
    dsimp only
    rw [if_pos hm]

/-- Witness for C6 at the concrete document `- &a x / - *a`. -/
theorem claim_C6_duplicate_anchor_witness :
    ∃ t, runCheck [] [Event.streamStart, Event.documentStart none true,
        Event.sequenceStart none none .Block] = .ok t ∧ ['a'] ∉ t :=
  claim_C6_duplicate_anchor.1 "- &a x\n- *a\n"
    [.streamStart, .documentStart none true, .sequenceStart none none .Block,
      .scalar (some ['a']) none ['x'] .Plain true false,
      .alias ['a'], .sequenceEnd, .documentEnd, .streamEnd]
    [.streamStart, .documentStart none true, .sequenceStart none none .Block]
    [.alias ['a'], .sequenceEnd, .documentEnd, .streamEnd]
    (.scalar (some ['a']) none ['x'] .Plain true false) ['a'] rfl rfl rfl

/-- Claim C7: per-document anchor scope — the parser anchor table is cleared
at every `DocumentEnd`, so whatever was checked before, the events after a
`DocumentEnd` are checked against the empty table; consequently an alias in
a later document to an anchor defined in an earlier document fails with
`ParseError.UndefinedAlias`, as the concrete multi-document scenario shows. -/
theorem claim_C7_anchor_scope :
    (∀ (tbl : List Str) (p : List Event) (t : List Str) (rest : List Event),
        runCheck tbl p = .ok t →
        runCheck tbl (p ++ Event.documentEnd :: rest) = runCheck [] rest)
    ∧ parse "- &a x\n---\n- *a\n" = .error .UndefinedAlias := by
  refine ⟨?_, rfl⟩
  intro tbl p t rest hp
  rw [runCheck_append, hp]
  dsimp only
  rw [runCheck_cons]
  dsimp only [anchorOf]

/-- Witness for C7 applied at a concrete table and stream. -/
theorem claim_C7_anchor_scope_witness :
    runCheck [] ([Event.scalar (some ['a']) none ['x'] .Plain true false] ++
        Event.documentEnd :: [Event.alias ['a']]) = runCheck [] [Event.alias ['a']] :=
  claim_C7_anchor_scope.1 [] [Event.scalar (some ['a']) none ['x'] .Plain true false]
    [['a']] [Event.alias ['a']] rfl

/-- Claim C8: concrete scenario — parsing the input `key: value` followed by
a newline produces exactly the events MappingStart, Scalar("key"),
Scalar("value"), MappingEnd, wrapped in StreamStart/DocumentStart before and
DocumentEnd/StreamEnd after. -/
theorem claim_C8_scenario :
    parse "key: value\n" = .ok [.streamStart, .documentStart none true,
      .mappingStart none none .Block,
      .scalar none none "key".toList .Plain true false,
      .scalar none none "value".toList .Plain true false,
      .mappingEnd, .documentEnd, .streamEnd] := rfl

/-- Claim C9: the `Length` property of a `ScalarEvent` returns the number of
characters of the scalar value; in particular for every value used to
construct an event, `Length` equals that value's length. -/
theorem claim_C9_length :
    (∀ e : ScalarEvent, e.Length = e.Value.length)
    ∧ (∀ (v : Str) (t a : Option Str) (st : ScalarStyle) (p q : Bool),
        (ScalarEvent.make v t a st p q).Length = v.length) := by
  exact ⟨fun e => rfl, fun v t a st p q => rfl⟩

/-- Claim C10: event objects are immutable through their public surface —
each get-only property, modelled as a state transformer, leaves the event
unchanged and returns the same value on a repeated read, for every property
of `ScalarEvent` and of `DocumentStartEvent`. -/
theorem claim_C10_immutable :
    ∀ (e : ScalarEvent) (d : DocumentStartEvent),
      (e.readAnchor.2 = e ∧ e.readTag.2 = e ∧ e.readValue.2 = e ∧
       e.readLength.2 = e ∧ e.readIsPlainImplicit.2 = e ∧
       e.readIsQuotedImplicit.2 = e ∧ e.readStyle.2 = e ∧
       d.readVersion.2 = d ∧ d.readIsImplicit.2 = d)
      ∧ ((e.readAnchor.2).readAnchor.1 = e.readAnchor.1 ∧
         (e.readTag.2).readTag.1 = e.readTag.1 ∧
         (e.readValue.2).readValue.1 = e.readValue.1 ∧
         (e.readLength.2).readLength.1 = e.readLength.1 ∧
         (e.readIsPlainImplicit.2).readIsPlainImplicit.1 = e.readIsPlainImplicit.1 ∧
         (e.readIsQuotedImplicit.2).readIsQuotedImplicit.1 = e.readIsQuotedImplicit.1 ∧
         (e.readStyle.2).readStyle.1 = e.readStyle.1 ∧
         (d.readVersion.2).readVersion.1 = d.readVersion.1 ∧
         (d.readIsImplicit.2).readIsImplicit.1 = d.readIsImplicit.1) := by
  intro e d
  exact ⟨⟨rfl, rfl, rfl, rfl, rfl, rfl, rfl, rfl, rfl⟩,
    ⟨rfl, rfl, rfl, rfl, rfl, rfl, rfl, rfl, rfl⟩⟩
